import Mathlib

/-!
Formal model of the sesh session lifecycle and resource coordination engine.

Each definition is a shallow embedding of the corresponding Rust function,
with the filesystem represented explicitly: the lock directory is a finite
association list from repository name to lock file contents, the session
registry is a list of session records, and timestamps are natural numbers.
Fallible filesystem primitives that the code treats as always succeeding in
the happy path are modelled as total functions; see the comments on each
definition for the correspondence.
-/

namespace Sesh

/-- Lock file contents, from `LockInfo` in lock.rs: the name of the holding
session and the acquisition timestamp. -/
structure LockInfo where
  session : String
  locked_at : Nat
  deriving DecidableEq, Repr

/-- The lock directory `.sesh/locks`: a list of (repository name, lock file
contents) pairs, one entry per lock file. -/
abbrev LockState := List (String × LockInfo)

/-- Well-formedness of the lock directory: a filesystem directory holds at
most one file per name. -/
def LockWF (st : LockState) : Prop := (st.map Prod.fst).Nodup

/-- lock.rs `acquire_lock`: unconditionally writes (overwrites) the lock file
for `repo_name` with the requesting session name and the current time. -/
def acquire_lock (st : LockState) (repo_name session_name : String) (now : Nat) : LockState :=
  (repo_name, ⟨session_name, now⟩) :: st.eraseP (fun p => p.1 == repo_name)

/-- lock.rs `release_lock`: removes the lock file if present; removing an
absent lock file is not an error. -/
def release_lock (st : LockState) (repo_name : String) : LockState :=
  st.eraseP (fun p => p.1 == repo_name)

/-- lock.rs `check_lock`: reads the lock file for `repo_name` if it exists. -/
def check_lock (st : LockState) (repo_name : String) : Option LockInfo :=
  st.lookup repo_name

/-- lock.rs `list_locks`: every lock file together with its contents. -/
def list_locks (st : LockState) : LockState := st

theorem lookup_eq_none_of_forall (st : LockState) (k : String)
    (h : ∀ p ∈ st, p.1 ≠ k) : st.lookup k = none := by
  induction st with
  | nil => rfl
  | cons a l ih =>
    have hka : (k == a.1) = false := by
      have := h a (List.mem_cons_self a l)
      simp [beq_iff_eq]
      intro hc
      exact this hc.symm
    rw [List.lookup, hka]
    exact ih (fun p hp => h p (List.mem_cons_of_mem a hp))

theorem keys_eraseP_self (st : LockState) (r : String) (h : LockWF st) :
    ∀ x ∈ st.eraseP (fun p => p.1 == r), x.1 ≠ r := by
  induction st with
  | nil => intro x hx; simp at hx
  | cons a l ih =>
    simp only [LockWF, List.map_cons, List.nodup_cons] at h
    by_cases ha : a.1 = r
    · intro x hx
      have hb : (a.1 == r) = true := by simp [ha]
      rw [List.eraseP_cons, hb, cond_true] at hx
      intro hc
      exact h.1 (by simpa [ha, ← hc] using List.mem_map_of_mem Prod.fst hx)
    · intro x hx
      have hb : (a.1 == r) = false := by simp [ha]
      rw [List.eraseP_cons, hb, cond_false] at hx
      rcases List.mem_cons.mp hx with hxa | hxl
      · rw [hxa]; exact ha
      · exact ih h.2 x hxl

theorem lookup_eraseP_ne (st : LockState) (k r : String) (h : k ≠ r) :
    (st.eraseP (fun p => p.1 == r)).lookup k = st.lookup k := by
  induction st with
  | nil => rfl
  | cons a l ih =>
    by_cases ha : a.1 = r
    · have hk : (k == a.1) = false := by simp [beq_iff_eq, ha, h]
      have hb : (a.1 == r) = true := by simp [ha]
      rw [List.eraseP_cons, hb, cond_true, List.lookup, hk]
    · have hb : (a.1 == r) = false := by simp [ha]
      rw [List.eraseP_cons, hb, cond_false, List.lookup, List.lookup]
      cases hka : (k == a.1) with
      | true => rfl
      | false => exact ih

theorem lookup_eraseP_self (st : LockState) (r : String) (h : LockWF st) :
    (st.eraseP (fun p => p.1 == r)).lookup r = none :=
  lookup_eq_none_of_forall _ r (keys_eraseP_self st r h)

theorem lockWF_eraseP (st : LockState) (p : String × LockInfo → Bool) (h : LockWF st) :
    LockWF (st.eraseP p) :=
  ((st.eraseP_sublist).map Prod.fst).nodup h

theorem lockWF_acquire (st : LockState) (r s : String) (t : Nat) (h : LockWF st) :
    LockWF (acquire_lock st r s t) := by
  unfold acquire_lock LockWF
  rw [List.map_cons, List.nodup_cons]
  refine ⟨fun hmem => ?_, lockWF_eraseP st _ h⟩
  rcases List.mem_map.mp hmem with ⟨x, hx, hfst⟩
  exact keys_eraseP_self st r h x hx hfst

theorem forall_of_lookup_eq_none (st : LockState) (k : String)
    (h : st.lookup k = none) : ∀ p ∈ st, p.1 ≠ k := by
  induction st with
  | nil => intro p hp; simp at hp
  | cons a l ih =>
    rw [List.lookup] at h
    cases hka : (k == a.1) with
    | true => rw [hka] at h; simp at h
    | false =>
      rw [hka] at h
      intro p hp
      rcases List.mem_cons.mp hp with hpa | hpl
      · rw [hpa]
        intro hc
        rw [hc] at hka
        simp at hka
      · exact ih h p hpl

/-- C4: after `acquire_lock(st, r, s, t)`, `check_lock` returns the lock as
held by session `s`, and keeps doing so across a `release_lock` or an
`acquire_lock` on a different repository; a further `acquire_lock` on the same
repository overwrites it; `release_lock` followed by `check_lock` returns
none; and `release_lock` succeeds and is a no-op when no lock file exists. -/
theorem C4_lock_lifecycle (st : LockState) (r r2 s s2 : String) (t t2 : Nat)
    (hWF : LockWF st) :
    check_lock (acquire_lock st r s t) r = some ⟨s, t⟩ ∧
    (r2 ≠ r → check_lock (release_lock (acquire_lock st r s t) r2) r = some ⟨s, t⟩) ∧
    (r2 ≠ r → check_lock (acquire_lock (acquire_lock st r s t) r2 s2 t2) r = some ⟨s, t⟩) ∧
    check_lock (acquire_lock (acquire_lock st r s t) r s2 t2) r = some ⟨s2, t2⟩ ∧
    check_lock (release_lock (acquire_lock st r s t) r) r = none ∧
    (check_lock st r = none → release_lock st r = st) ∧
    release_lock (release_lock st r) r = release_lock st r := by
  have hself : check_lock (acquire_lock st r s t) r = some ⟨s, t⟩ := by
    unfold check_lock acquire_lock
    rw [List.lookup]
    simp
  refine ⟨hself, ?_, ?_, ?_, ?_, ?_, ?_⟩
  · intro hne
    unfold release_lock
    rw [check_lock, lookup_eraseP_ne _ r r2 (fun hc => hne hc.symm)]
    exact hself
  · intro hne
    unfold check_lock acquire_lock
    rw [List.lookup]
    have : (r == r2) = false := by simp [beq_iff_eq]; intro hc; exact hne hc.symm
    rw [this]
    rw [show List.lookup r (((r, ⟨s, t⟩) :: st.eraseP (fun p => p.1 == r)).eraseP
          (fun p => p.1 == r2)) =
        check_lock (release_lock (acquire_lock st r s t) r2) r from rfl]
    unfold release_lock
    rw [check_lock, lookup_eraseP_ne _ r r2 (fun hc => hne hc.symm)]
    exact hself
  · unfold check_lock acquire_lock
    rw [List.lookup]
    simp
  · unfold release_lock acquire_lock
    rw [List.eraseP_cons_of_pos (by simp)]
    exact lookup_eraseP_self st r hWF
  · intro hnone
    exact List.eraseP_of_forall_not
      (fun p hp => by simpa using forall_of_lookup_eq_none st r hnone p hp)
  · unfold release_lock
    exact List.eraseP_of_forall_not
      (fun p hp => by simpa using keys_eraseP_self st r hWF p hp)

/-- Witness for C4 at a concrete lock directory. -/
theorem C4_lock_lifecycle_witness :
    check_lock (acquire_lock ([("web", ⟨"beta", 1⟩)] : LockState) "infra" "alpha" 3)
        "infra" = some ⟨"alpha", 3⟩ ∧
    check_lock (release_lock (acquire_lock ([("web", ⟨"beta", 1⟩)] : LockState)
        "infra" "alpha" 3) "infra") "infra" = none := by
  have h := C4_lock_lifecycle [("web", ⟨"beta", 1⟩)] "infra" "web" "alpha" "beta" 3 4
    (by unfold LockWF; decide)
  exact ⟨h.1, h.2.2.2.2.1⟩

theorem check_acquire_self (st : LockState) (r s : String) (t : Nat) :
    check_lock (acquire_lock st r s t) r = some ⟨s, t⟩ := by
  unfold check_lock acquire_lock
  rw [List.lookup]
  simp

theorem check_acquire_ne (st : LockState) (k r s : String) (t : Nat) (h : k ≠ r) :
    check_lock (acquire_lock st r s t) k = check_lock st k := by
  unfold check_lock acquire_lock
  rw [List.lookup]
  have hk : (k == r) = false := by simp [beq_iff_eq, h]
  rw [hk]
  exact lookup_eraseP_ne st k r h

/-- The registry view consulted during lock arbitration: the set of session
names whose `session.json` file exists (session.rs `session_exists`). -/
abbrev Registry := List String

/-- session.rs `session_exists`: the session directory contains a
`session.json` file. -/
def session_exists (registry : Registry) (name : String) : Bool :=
  registry.contains name

/-- One iteration of the exclusive-lock loop in commands/start.rs `run`
(step 10), for a repository already known to be exclusive: check the current
lock; if absent, acquire it; if held by a session that still exists, record
the repository as skipped and leave the lock alone; if held by a session
absent from the registry, reclaim by acquiring over it. -/
def arbitrate_one (registry : Registry) (session_name : String) (now : Nat)
    (acc : LockState × List String) (repo : String) : LockState × List String :=
  match check_lock acc.1 repo with
  | none => (acquire_lock acc.1 repo session_name now, acc.2)
  | some lock_info =>
      if session_exists registry lock_info.session then
        (acc.1, acc.2 ++ [repo])
      else
        (acquire_lock acc.1 repo session_name now, acc.2)

/-- The body of the exclusive-lock loop over an arbitrary accumulator:
repositories not marked exclusive in the configuration never consult locks. -/
def lock_fold (exclusive : String → Bool) (registry : Registry)
    (session_name : String) (now : Nat) (repos : List String)
    (acc : LockState × List String) : LockState × List String :=
  repos.foldl (fun acc repo =>
    if exclusive repo then arbitrate_one registry session_name now acc repo else acc)
    acc

/-- The exclusive-lock acquisition loop of commands/start.rs `run` (step 10):
iterate the selected repositories in order, arbitrating only those marked
exclusive in the configuration, starting from an empty skipped list. -/
def acquire_exclusive_locks (exclusive : String → Bool) (registry : Registry)
    (session_name : String) (now : Nat) (repos : List String) (st : LockState) :
    LockState × List String :=
  lock_fold exclusive registry session_name now repos (st, [])

theorem arbitrate_one_check_ne (registry : Registry) (sn : String) (now : Nat)
    (st : LockState) (sk : List String) (a k : String) (h : k ≠ a) :
    check_lock (arbitrate_one registry sn now (st, sk) a).1 k = check_lock st k := by
  unfold arbitrate_one
  cases hc : check_lock st a with
  | none => exact check_acquire_ne st k a sn now h
  | some li =>
    by_cases hr : session_exists registry li.session
    · simp [hr]
    · simp only [hr, if_neg, Bool.false_eq_true, not_false_eq_true]
      exact check_acquire_ne st k a sn now h

theorem arbitrate_one_skipped (registry : Registry) (sn : String) (now : Nat)
    (st : LockState) (sk : List String) (a k : String) (h : k ≠ a) :
    (k ∈ (arbitrate_one registry sn now (st, sk) a).2 ↔ k ∈ sk) := by
  unfold arbitrate_one
  cases hc : check_lock st a with
  | none => exact Iff.rfl
  | some li =>
    by_cases hr : session_exists registry li.session
    · simp [hr, h]
    · simp [hr]

theorem arbitrate_one_wf (registry : Registry) (sn : String) (now : Nat)
    (st : LockState) (sk : List String) (a : String) (hWF : LockWF st) :
    LockWF (arbitrate_one registry sn now (st, sk) a).1 := by
  unfold arbitrate_one
  cases hc : check_lock st a with
  | none => exact lockWF_acquire st a sn now hWF
  | some li =>
    by_cases hr : session_exists registry li.session
    · simpa [hr] using hWF
    · simp only [hr, Bool.false_eq_true, if_neg, not_false_eq_true]
      exact lockWF_acquire st a sn now hWF

theorem lock_fold_preserve (exclusive : String → Bool) (registry : Registry)
    (sn : String) (now : Nat) (l : List String) (k : String) (hk : k ∉ l) :
    ∀ acc : LockState × List String, LockWF acc.1 →
      check_lock (lock_fold exclusive registry sn now l acc).1 k = check_lock acc.1 k ∧
      (k ∈ (lock_fold exclusive registry sn now l acc).2 ↔ k ∈ acc.2) ∧
      LockWF (lock_fold exclusive registry sn now l acc).1 := by
  induction l with
  | nil => intro acc hWF; exact ⟨rfl, Iff.rfl, hWF⟩
  | cons a l ih =>
    intro acc hWF
    obtain ⟨st, sk⟩ := acc
    have hka : k ≠ a := fun hc => hk (hc ▸ List.mem_cons_self a l)
    have hkl : k ∉ l := fun hc => hk (List.mem_cons_of_mem a hc)
    by_cases he : exclusive a
    · have hstep : lock_fold exclusive registry sn now (a :: l) (st, sk) =
          lock_fold exclusive registry sn now l (arbitrate_one registry sn now (st, sk) a) := by
        unfold lock_fold
        rw [List.foldl_cons, if_pos he]
      rw [hstep]
      obtain ⟨h1, h2, h3⟩ := ih hkl (arbitrate_one registry sn now (st, sk) a)
        (arbitrate_one_wf registry sn now st sk a hWF)
      refine ⟨?_, ?_, h3⟩
      · rw [h1]
        exact arbitrate_one_check_ne registry sn now st sk a k hka
      · rw [h2]
        exact arbitrate_one_skipped registry sn now st sk a k hka
    · have hstep : lock_fold exclusive registry sn now (a :: l) (st, sk) =
          lock_fold exclusive registry sn now l (st, sk) := by
        unfold lock_fold
        rw [List.foldl_cons, if_neg he]
      rw [hstep]
      exact ih hkl (st, sk) hWF

theorem lock_fold_cases (exclusive : String → Bool) (registry : Registry)
    (sn : String) (now : Nat) (repos : List String) (k : String)
    (hnd : repos.Nodup) (hk : k ∈ repos) (he : exclusive k = true) :
    ∀ acc : LockState × List String, LockWF acc.1 →
      (check_lock acc.1 k = none →
        check_lock (lock_fold exclusive registry sn now repos acc).1 k = some ⟨sn, now⟩ ∧
        (k ∈ (lock_fold exclusive registry sn now repos acc).2 ↔ k ∈ acc.2)) ∧
      (∀ li, check_lock acc.1 k = some li → session_exists registry li.session = true →
        check_lock (lock_fold exclusive registry sn now repos acc).1 k = some li ∧
        k ∈ (lock_fold exclusive registry sn now repos acc).2) ∧
      (∀ li, check_lock acc.1 k = some li → session_exists registry li.session = false →
        check_lock (lock_fold exclusive registry sn now repos acc).1 k = some ⟨sn, now⟩ ∧
        (k ∈ (lock_fold exclusive registry sn now repos acc).2 ↔ k ∈ acc.2)) := by
  induction repos with
  | nil => exact absurd hk (by simp)
  | cons a l ih =>
    intro acc hWF
    obtain ⟨st, sk⟩ := acc
    have hnd2 : a ∉ l ∧ l.Nodup := by
      rw [List.nodup_cons] at hnd
      exact hnd
    by_cases hak : k = a
    · subst hak
      have hkl : k ∉ l := hnd2.1
      have hstep : lock_fold exclusive registry sn now (k :: l) (st, sk) =
          lock_fold exclusive registry sn now l (arbitrate_one registry sn now (st, sk) k) := by
        unfold lock_fold
        rw [List.foldl_cons, if_pos he]
      rw [hstep]
      refine ⟨?_, ?_, ?_⟩
      · intro hnone
        have harb : arbitrate_one registry sn now (st, sk) k =
            (acquire_lock st k sn now, sk) := by
          unfold arbitrate_one
          rw [show check_lock (st, sk).1 k = none from hnone]
        rw [harb]
        obtain ⟨p1, p2, _⟩ := lock_fold_preserve exclusive registry sn now l k hkl
          (acquire_lock st k sn now, sk) (lockWF_acquire st k sn now hWF)
        rw [p1, p2]
        exact ⟨check_acquire_self st k sn now, Iff.rfl⟩
      · intro li hsome hlive
        have harb : arbitrate_one registry sn now (st, sk) k = (st, sk ++ [k]) := by
          unfold arbitrate_one
          rw [show check_lock (st, sk).1 k = some li from hsome]
          simp [hlive]
        rw [harb]
        obtain ⟨p1, p2, _⟩ := lock_fold_preserve exclusive registry sn now l k hkl
          (st, sk ++ [k]) hWF
        rw [p1, p2]
        exact ⟨hsome, by simp⟩
      · intro li hsome hdead
        have harb : arbitrate_one registry sn now (st, sk) k =
            (acquire_lock st k sn now, sk) := by
          unfold arbitrate_one
          rw [show check_lock (st, sk).1 k = some li from hsome]
          simp [hdead]
        rw [harb]
        obtain ⟨p1, p2, _⟩ := lock_fold_preserve exclusive registry sn now l k hkl
          (acquire_lock st k sn now, sk) (lockWF_acquire st k sn now hWF)
        rw [p1, p2]
        exact ⟨check_acquire_self st k sn now, Iff.rfl⟩
    · have hkl : k ∈ l := by
        rcases List.mem_cons.mp hk with hc | hc
        · exact absurd hc hak
        · exact hc
      by_cases hea : exclusive a
      · have hstep : lock_fold exclusive registry sn now (a :: l) (st, sk) =
            lock_fold exclusive registry sn now l (arbitrate_one registry sn now (st, sk) a) := by
          unfold lock_fold
          rw [List.foldl_cons, if_pos hea]
        rw [hstep]
        have hck : check_lock (arbitrate_one registry sn now (st, sk) a).1 k =
            check_lock st k := arbitrate_one_check_ne registry sn now st sk a k hak
        have hsk : (k ∈ (arbitrate_one registry sn now (st, sk) a).2 ↔ k ∈ sk) :=
          arbitrate_one_skipped registry sn now st sk a k hak
        obtain ⟨q1, q2, q3⟩ := ih hnd2.2 hkl (arbitrate_one registry sn now (st, sk) a)
          (arbitrate_one_wf registry sn now st sk a hWF)
        refine ⟨?_, ?_, ?_⟩
        · intro hnone
          obtain ⟨r1, r2⟩ := q1 (by rw [hck]; exact hnone)
          exact ⟨r1, r2.trans hsk⟩
        · intro li hsome hlive
          exact q2 li (by rw [hck]; exact hsome) hlive
        · intro li hsome hdead
          obtain ⟨r1, r2⟩ := q3 li (by rw [hck]; exact hsome) hdead
          exact ⟨r1, r2.trans hsk⟩
      · have hstep : lock_fold exclusive registry sn now (a :: l) (st, sk) =
            lock_fold exclusive registry sn now l (st, sk) := by
          unfold lock_fold
          rw [List.foldl_cons, if_neg hea]
        rw [hstep]
        exact ih hnd2.2 hkl (st, sk) hWF

/-- One created worktree as tracked by the `created_worktrees` vector of
commands/start.rs `run`: the originating repository path paired with the
worktree path under the session directory. -/
structure Worktree where
  repo_path : String
  worktree_path : String
  deriving DecidableEq, Repr

/-- start.rs `rollback_worktrees`: iterate the created list in reverse and
invoke `remove_worktree` on each entry. The first component is the worktree
set after the removals; the second records the order in which removal was
invoked. -/
def rollback_worktrees (wts : List Worktree) (created : List Worktree) :
    List Worktree × List Worktree :=
  created.reverse.foldl (fun acc w => (acc.1.erase w, acc.2 ++ [w])) (wts, [])

/-- Outcome of the provisioning loop: either all worktrees were created, or
the loop failed at some repository; on failure it reports the worktrees of
this run still present after rollback and the removal-invocation order. -/
inductive ProvisionResult where
  | ok (created : List Worktree)
  | failed (repo : String) (afterRollback : List Worktree) (removalOrder : List Worktree)
  deriving DecidableEq, Repr

/-- The per-repository loop of commands/start.rs `run` (step 5): for each
selected repository, fetch (best effort, never fatal) and create the
worktree; on the first creation failure call `rollback_worktrees` on
everything created so far in this run and propagate the error. `createOk`
records whether `git worktree add` succeeds for a repository. -/
def provision (createOk : String → Bool) (sessDir : String) :
    List (String × String) → List Worktree → ProvisionResult
  | [], created => .ok created
  | (name, path) :: rest, created =>
      if createOk name then
        provision createOk sessDir rest
          (created ++ [⟨path, sessDir ++ "/" ++ name⟩])
      else
        let rb := rollback_worktrees created created
        .failed name rb.1 rb.2

theorem rollback_fold_spec {rms : List Worktree} :
    ∀ (wts acc : List Worktree), wts.Perm rms →
      rms.foldl (fun acc w => (acc.1.erase w, acc.2 ++ [w])) (wts, acc) =
        ([], acc ++ rms) := by
  induction rms with
  | nil =>
    intro wts acc h
    rw [List.perm_nil] at h
    simp [h]
  | cons r rs ih =>
    intro wts acc h
    have hr : r ∈ wts := h.symm.mem_iff.mp (List.mem_cons_self r rs)
    have hperm : List.Perm (wts.erase r) rs :=
      ((List.perm_cons_erase hr).symm.trans h).cons_inv
    rw [List.foldl_cons]
    rw [ih (wts.erase r) (acc ++ [r]) hperm]
    simp

theorem rollback_worktrees_spec (created : List Worktree) :
    rollback_worktrees created created = ([], created.reverse) := by
  unfold rollback_worktrees
  rw [rollback_fold_spec created [] created.reverse_perm.symm]
  simp

/-- The worktrees created, in creation order, for a prefix of repositories
that all provision successfully. -/
def createdFor (sessDir : String) (repos : List (String × String)) : List Worktree :=
  repos.map (fun p => ⟨p.2, sessDir ++ "/" ++ p.1⟩)

theorem provision_fail_go (createOk : String → Bool) (sessDir : String)
    (r : String) (rpath : String) (suf : List (String × String))
    (hr : createOk r = false) :
    ∀ (pre : List (String × String)) (created : List Worktree),
      (∀ p ∈ pre, createOk p.1 = true) →
      provision createOk sessDir (pre ++ (r, rpath) :: suf) created =
        .failed r (rollback_worktrees (created ++ createdFor sessDir pre)
            (created ++ createdFor sessDir pre)).1
          (rollback_worktrees (created ++ createdFor sessDir pre)
            (created ++ createdFor sessDir pre)).2 := by
  intro pre
  induction pre with
  | nil =>
    intro created _
    rw [List.nil_append]
    unfold provision
    rw [if_neg (by rw [hr]; exact Bool.false_ne_true)]
    simp [createdFor]
  | cons p pre ih =>
    intro created hpre
    obtain ⟨pn, pp⟩ := p
    have hp : createOk pn = true := hpre (pn, pp) (List.mem_cons_self _ _)
    rw [List.cons_append]
    unfold provision
    rw [if_pos hp]
    rw [ih (created ++ [(⟨pp, sessDir ++ "/" ++ pn⟩ : Worktree)])
      (fun q hq => hpre q (List.mem_cons_of_mem _ hq))]
    have hlist : created ++ [(⟨pp, sessDir ++ "/" ++ pn⟩ : Worktree)] ++
        createdFor sessDir pre = created ++ createdFor sessDir ((pn, pp) :: pre) := by
      simp [createdFor]
    rw [hlist]

/-- C1: if the worktree-creation step fails for any single repository, the
run invokes removal on every worktree created so far, in reverse creation
order, before propagating the error, and the post-run set of worktrees
attributable to the run is empty. -/
theorem C1_full_rollback (createOk : String → Bool) (sessDir : String)
    (pre suf : List (String × String)) (r rpath : String)
    (hpre : ∀ p ∈ pre, createOk p.1 = true) (hr : createOk r = false) :
    provision createOk sessDir (pre ++ (r, rpath) :: suf) [] =
      .failed r [] (createdFor sessDir pre).reverse := by
  rw [provision_fail_go createOk sessDir r rpath suf hr pre [] hpre]
  rw [List.nil_append, rollback_worktrees_spec]

/-- Witness for C1: three repositories, the second fails; both worktrees
created so far are removed, newest first, and nothing of the run remains. -/
theorem C1_full_rollback_witness :
    provision (fun n => n ≠ "web") "/s/fix"
      [("api", "/r/api"), ("db", "/r/db"), ("web", "/r/web"), ("infra", "/r/infra")] [] =
      .failed "web" []
        [⟨"/r/db", "/s/fix/db"⟩, ⟨"/r/api", "/s/fix/api"⟩] := by
  have h := C1_full_rollback (fun n => n ≠ "web") "/s/fix"
    [("api", "/r/api"), ("db", "/r/db")] [("infra", "/r/infra")] "web" "/r/web"
    (by decide) (by decide)
  rw [show ([("api", "/r/api"), ("db", "/r/db")] ++ ("web", "/r/web") ::
      [("infra", "/r/infra")] : List (String × String)) =
    [("api", "/r/api"), ("db", "/r/db"), ("web", "/r/web"), ("infra", "/r/infra")] from rfl] at h
  rw [h]
  rfl

/-- Decimal rendering of a natural number, the semantics of the integer
formatting used for the collision counter in session.rs. -/
def natDecStr (n : Nat) : String :=
  if n = 0 then "0" else ⟨((Nat.digits 10 n).map Nat.digitChar).reverse⟩

theorem digitChar_inj : ∀ d₁ < 10, ∀ d₂ < 10,
    Nat.digitChar d₁ = Nat.digitChar d₂ → d₁ = d₂ := by decide

theorem map_digitChar_inj : ∀ (l₁ l₂ : List Nat), (∀ d ∈ l₁, d < 10) →
    (∀ d ∈ l₂, d < 10) → l₁.map Nat.digitChar = l₂.map Nat.digitChar → l₁ = l₂ := by
  intro l₁
  induction l₁ with
  | nil =>
    intro l₂ _ _ h
    cases l₂ with
    | nil => rfl
    | cons b t => simp at h
  | cons a t ih =>
    intro l₂ h₁ h₂ h
    cases l₂ with
    | nil => simp at h
    | cons b t₂ =>
      rw [List.map_cons, List.map_cons, List.cons.injEq] at h
      have ha : a = b := digitChar_inj a (h₁ a (List.mem_cons_self a t)) b
        (h₂ b (List.mem_cons_self b t₂)) h.1
      rw [List.cons.injEq]
      exact ⟨ha, ih t₂ (fun d hd => h₁ d (List.mem_cons_of_mem a hd))
        (fun d hd => h₂ d (List.mem_cons_of_mem b hd)) h.2⟩

theorem natDecStr_inj (n m : Nat) (hn : 0 < n) (hm : 0 < m)
    (h : natDecStr n = natDecStr m) : n = m := by
  unfold natDecStr at h
  rw [if_neg (by omega), if_neg (by omega)] at h
  have hdata : ((Nat.digits 10 n).map Nat.digitChar).reverse =
      ((Nat.digits 10 m).map Nat.digitChar).reverse := congrArg String.data h
  rw [List.reverse_inj] at hdata
  have hdig : Nat.digits 10 n = Nat.digits 10 m :=
    map_digitChar_inj _ _ (fun d hd => Nat.digits_lt_base (by norm_num) hd)
      (fun d hd => Nat.digits_lt_base (by norm_num) hd) hdata
  calc n = Nat.ofDigits 10 (Nat.digits 10 n) := (Nat.ofDigits_digits 10 n).symm
    _ = Nat.ofDigits 10 (Nat.digits 10 m) := by rw [hdig]
    _ = m := Nat.ofDigits_digits 10 m

/-- session.rs `sanitize_session_name`, separator replacement: Rust
`branch.replace` of the path separator by a dash, character by character. -/
def replace_sep (s : String) : String :=
  ⟨s.data.map (fun c => if c = '/' then '-' else c)⟩

/-- session.rs `sanitize_session_name`, dot stripping and fallback: strip all
leading dots; if stripping left the name empty, use the fixed fallback. -/
def base_session_name (branch : String) : String :=
  let name : String := ⟨(replace_sep branch).data.dropWhile (fun c => c == '.')⟩
  if name.isEmpty then "session" else name

/-- session.rs `sanitize_session_name`, collision loop: append -2, -3, and so
on until the candidate is not among the existing session directory names.
The loop in the source is unbounded; `fuel` bounds the model and is chosen
large enough that the loop provably finds a fresh name before exhausting it. -/
def resolve_collision (name : String) (existing : List String) :
    Nat → Nat → String
  | 0, counter => name ++ "-" ++ natDecStr counter
  | fuel + 1, counter =>
      let candidate := name ++ "-" ++ natDecStr counter
      if candidate ∈ existing then resolve_collision name existing fuel (counter + 1)
      else candidate

/-- session.rs `sanitize_session_name`: sanitize the branch name into a flat
folder name, then resolve collisions against the existing session directory
names (passed explicitly here; the source reads them from the sessions
directory). -/
def sanitize_session_name (branch : String) (existing : List String) : String :=
  let name := base_session_name branch
  if name ∈ existing then resolve_collision name existing (existing.length + 1) 2
  else name

theorem string_append_left_cancel (a b c : String) (h : a ++ b = a ++ c) :
    b = c := by
  have hd : a.data ++ b.data = a.data ++ c.data := by
    have := congrArg String.data h
    simpa [String.data_append] using this
  have hbc : b.data = c.data := List.append_cancel_left hd
  cases b
  cases c
  exact congrArg String.mk hbc

theorem resolve_collision_fresh (name : String) (existing : List String) :
    ∀ (fuel c : Nat),
      (∃ j, c ≤ j ∧ j < c + fuel ∧ (name ++ "-" ++ natDecStr j) ∉ existing) →
      resolve_collision name existing fuel c ∉ existing := by
  intro fuel
  induction fuel with
  | zero =>
    intro c ⟨j, hj1, hj2, _⟩
    omega
  | succ fuel ih =>
    intro c ⟨j, hj1, hj2, hj3⟩
    unfold resolve_collision
    by_cases hc : (name ++ "-" ++ natDecStr c) ∈ existing
    · rw [if_pos hc]
      refine ih (c + 1) ⟨j, ?_, by omega, hj3⟩
      rcases Nat.eq_or_lt_of_le hj1 with heq | hlt
      · exact absurd (heq ▸ hc) hj3
      · omega
    · rw [if_neg hc]
      exact hc

theorem fresh_candidate_exists (name : String) (existing : List String) :
    ∃ j, 2 ≤ j ∧ j < 2 + (existing.length + 1) ∧
      (name ++ "-" ++ natDecStr j) ∉ existing := by
  by_contra hall
  push_neg at hall
  have hmaps : ∀ j ∈ Finset.Ico 2 (existing.length + 3),
      (name ++ "-" ++ natDecStr j) ∈ existing.toFinset := by
    intro j hj
    rw [Finset.mem_Ico] at hj
    rw [List.mem_toFinset]
    exact hall j hj.1 (by omega)
  have hinj : ∀ j₁ ∈ Finset.Ico 2 (existing.length + 3),
      ∀ j₂ ∈ Finset.Ico 2 (existing.length + 3),
      (name ++ "-" ++ natDecStr j₁) = (name ++ "-" ++ natDecStr j₂) → j₁ = j₂ := by
    intro j₁ hj₁ j₂ hj₂ heq
    rw [Finset.mem_Ico] at hj₁ hj₂
    have h₁ : natDecStr j₁ = natDecStr j₂ := by
      have := string_append_left_cancel (name ++ "-") (natDecStr j₁) (natDecStr j₂)
      apply this
      simpa [String.append_assoc] using heq
    exact natDecStr_inj j₁ j₂ (by omega) (by omega) h₁
  have hcard := Finset.card_le_card_of_injOn _ hmaps hinj
  rw [Nat.card_Ico] at hcard
  have hle : existing.toFinset.card ≤ existing.length := existing.toFinset_card_le
  omega

/-- C6: session-name derivation never returns a name already present in the
existing set; when the sanitized base name is itself fresh it is returned
unchanged; the base name contains no path separator and never starts with a
dot; and when separator replacement and dot stripping empty the string the
fixed fallback is used. Determinism holds by construction: the derivation is
a pure function of the branch and the existing-name set. -/
theorem C6_session_name_fresh (branch : String) (existing : List String) :
    sanitize_session_name branch existing ∉ existing ∧
    (base_session_name branch ∉ existing →
      sanitize_session_name branch existing = base_session_name branch) ∧
    '/' ∉ (base_session_name branch).data ∧
    (base_session_name branch).data.head? ≠ some '.' ∧
    (((replace_sep branch).data.dropWhile (fun c => c == '.')) = [] →
      base_session_name branch = "session") := by
  refine ⟨?_, ?_, ?_, ?_, ?_⟩
  · unfold sanitize_session_name
    by_cases hb : base_session_name branch ∈ existing
    · rw [if_pos hb]
      obtain ⟨j, hj1, hj2, hj3⟩ := fresh_candidate_exists (base_session_name branch) existing
      exact resolve_collision_fresh _ existing (existing.length + 1) 2 ⟨j, hj1, hj2, hj3⟩
    · rw [if_neg hb]
      exact hb
  · intro hb
    unfold sanitize_session_name
    rw [if_neg hb]
  · unfold base_session_name
    by_cases he : (⟨(replace_sep branch).data.dropWhile (fun c => c == '.')⟩ : String).isEmpty
    · rw [if_pos he]
      decide
    · rw [if_neg he]
      intro hmem
      have hsub : '/' ∈ (replace_sep branch).data :=
        List.dropWhile_sublist _ |>.subset hmem
      unfold replace_sep at hsub
      simp only [List.mem_map] at hsub
      obtain ⟨c, _, hc⟩ := hsub
      by_cases hcs : c = '/'
      · rw [if_pos hcs] at hc
        exact absurd hc (by decide)
      · rw [if_neg hcs] at hc
        exact hcs hc
  · unfold base_session_name
    by_cases he : (⟨(replace_sep branch).data.dropWhile (fun c => c == '.')⟩ : String).isEmpty
    · rw [if_pos he]
      decide
    · rw [if_neg he]
      intro hc
      have hthis := List.head?_dropWhile_not (fun c => c == '.') (replace_sep branch).data
      rw [show ((replace_sep branch).data.dropWhile (fun c => c == '.')).head? =
        some '.' from hc] at hthis
      simp at hthis
  · intro hempty
    unfold base_session_name
    rw [if_pos (by rw [hempty]; rfl)]

/-- Witness for C6: a branch with a separator colliding twice, and a branch
that sanitizes to the empty string. -/
theorem C6_session_name_fresh_witness :
    sanitize_session_name "feature/login" ["feature-login", "feature-login-2"] ∉
      (["feature-login", "feature-login-2"] : List String) ∧
    sanitize_session_name "..." [] = "session" := by
  constructor
  · exact (C6_session_name_fresh "feature/login" ["feature-login", "feature-login-2"]).1
  · have h := (C6_session_name_fresh "..." []).2.1 (by simp)
    rw [h]
    rfl

/-- A recorded background process, from `BackgroundPid` in session.rs. -/
structure BackgroundPid where
  pid : Nat
  label : String
  script : String
  deriving DecidableEq, Repr

/-- The observable states of a session's background_pids.json file when
read: absent, unreadable, readable but not valid JSON, or parsed. -/
inductive PidFileRead where
  | missing
  | unreadable
  | unparseable
  | parsed (pids : List BackgroundPid)
  deriving DecidableEq, Repr

/-- session.rs `load_background_pids`: a missing file, a read error and a
parse failure all yield the empty list (`unwrap_or_default`); a parsed file
yields its contents. The return type is a plain list: the function cannot
fail. -/
def load_background_pids : PidFileRead → List BackgroundPid
  | .missing => []
  | .unreadable => []
  | .unparseable => []
  | .parsed pids => pids

/-- C9: loading the recorded background-pid list never fails; whenever
background_pids.json is missing, unreadable or unparseable the result is the
empty list rather than an error. -/
theorem C9_load_background_pids_total (f : PidFileRead)
    (h : f = .missing ∨ f = .unreadable ∨ f = .unparseable) :
    load_background_pids f = [] := by
  rcases h with h | h | h <;> rw [h] <;> rfl

/-- Witness for C9 at the missing-file case. -/
theorem C9_load_background_pids_total_witness :
    load_background_pids .missing = [] :=
  C9_load_background_pids_total .missing (Or.inl rfl)

/-- Per-pid behavior after the graceful terminate signal is sent at tick 0:
`some k` means the process is gone from tick k on (k = 0 models a process
that had already exited, so that every signal or probe to it sees "no such
process"); `none` means it ignores the terminate signal and stays alive
until force-killed. One tick is one 200ms polling sleep of scripts.rs. -/
abbrev TermBehavior := Nat → Option Nat

/-- scripts.rs `is_process_alive` at polling tick `t`: the non-destructive
probe (signal 0) reports whether the process still runs; probing a process
that no longer exists reports false (exit status failure) rather than an
error. -/
def is_process_alive (behavior : TermBehavior) (t : Nat) (pid : Nat) : Bool :=
  match behavior pid with
  | none => true
  | some k => t < k

/-- The escalation deadline of scripts.rs `kill_background_pids`: 5 seconds
at one 200ms sleep per polling tick. -/
def deadlineTicks : Nat := 25

/-- The polling loop of scripts.rs `kill_background_pids`: starting at tick
`t`, return the tick at which the loop exits, namely the first tick at which
no recorded pid is alive or the deadline has passed. The loop in the source
is bounded by the 5-second deadline; `fuel` makes the model structurally
recursive and is chosen to outlast the deadline. -/
def poll_until_dead (behavior : TermBehavior) (pids : List BackgroundPid) :
    Nat → Nat → Nat
  | 0, t => t
  | fuel + 1, t =>
      if pids.any (fun bp => is_process_alive behavior t bp.pid) = false ∨
          deadlineTicks ≤ t then t
      else poll_until_dead behavior pids fuel (t + 1)

/-- The observable outcome of scripts.rs `kill_background_pids`. -/
structure KillResult where
  termed : List BackgroundPid
  break_tick : Nat
  killed : List BackgroundPid
  deriving DecidableEq, Repr

/-- scripts.rs `kill_background_pids`: send the graceful terminate signal to
every recorded pid (ignoring failures, so a pid that no longer exists is
tolerated), poll liveness in 200ms sleeps up to the 5-second deadline, then
send the force-kill signal to exactly those pids still alive. -/
def kill_background_pids (behavior : TermBehavior) (pids : List BackgroundPid) :
    KillResult :=
  let break_tick := poll_until_dead behavior pids (deadlineTicks + 1) 0
  { termed := pids
    break_tick := break_tick
    killed := pids.filter (fun bp => is_process_alive behavior break_tick bp.pid) }

theorem poll_le_deadline (behavior : TermBehavior) (pids : List BackgroundPid) :
    ∀ (fuel t : Nat), t ≤ deadlineTicks → deadlineTicks < t + fuel →
      poll_until_dead behavior pids fuel t ≤ deadlineTicks := by
  intro fuel
  induction fuel with
  | zero => intro t h1 h2; omega
  | succ fuel ih =>
    intro t h1 h2
    unfold poll_until_dead
    by_cases hc : pids.any (fun bp => is_process_alive behavior t bp.pid) = false ∨
        deadlineTicks ≤ t
    · rw [if_pos hc]; exact h1
    · rw [if_neg hc]
      push_neg at hc
      exact ih (t + 1) (by omega) (by omega)

theorem poll_exits (behavior : TermBehavior) (pids : List BackgroundPid) (K : Nat)
    (hK : K ≤ deadlineTicks)
    (hdead : pids.any (fun bp => is_process_alive behavior K bp.pid) = false) :
    ∀ (fuel t : Nat), t ≤ K → K < t + fuel →
      pids.any (fun bp =>
        is_process_alive behavior (poll_until_dead behavior pids fuel t) bp.pid) = false ∧
      poll_until_dead behavior pids fuel t ≤ K := by
  intro fuel
  induction fuel with
  | zero => intro t h1 h2; omega
  | succ fuel ih =>
    intro t h1 h2
    unfold poll_until_dead
    by_cases hc : pids.any (fun bp => is_process_alive behavior t bp.pid) = false ∨
        deadlineTicks ≤ t
    · rw [if_pos hc]
      rcases hc with hc | hc
      · exact ⟨hc, h1⟩
      · have ht : t = K := by omega
        exact ⟨ht ▸ hdead, h1⟩
    · rw [if_neg hc]
      push_neg at hc
      rcases Nat.eq_or_lt_of_le h1 with heq | hlt
      · exact absurd (heq ▸ hdead) hc.1
      · exact ih (t + 1) (by omega) (by omega)

/-- C5: the kill procedure terminates every recorded pid gracefully first,
breaks out of the bounded poll no later than the 5-second deadline, then
force-kills exactly the pids still alive at that point; if every process
exits on the graceful signal within the deadline, no pid is alive at the
break and nothing is force-killed; a process that ignores the graceful
signal is force-killed by the deadline; an already-exited pid is tolerated
by probe and signals (reported dead, never force-killed, no error). -/
theorem C5_kill_two_phase (behavior : TermBehavior) (pids : List BackgroundPid) :
    (kill_background_pids behavior pids).termed = pids ∧
    (kill_background_pids behavior pids).break_tick ≤ deadlineTicks ∧
    (kill_background_pids behavior pids).killed = pids.filter (fun bp =>
      is_process_alive behavior (kill_background_pids behavior pids).break_tick bp.pid) ∧
    ((∀ bp ∈ pids, ∃ k, k ≤ deadlineTicks ∧ behavior bp.pid = some k) →
      (kill_background_pids behavior pids).killed = [] ∧
      ∀ bp ∈ pids, is_process_alive behavior
        (kill_background_pids behavior pids).break_tick bp.pid = false) ∧
    (∀ bp ∈ pids, behavior bp.pid = none →
      bp ∈ (kill_background_pids behavior pids).killed) ∧
    (∀ bp ∈ pids, behavior bp.pid = some 0 →
      is_process_alive behavior (kill_background_pids behavior pids).break_tick bp.pid
        = false ∧
      bp ∉ (kill_background_pids behavior pids).killed) := by
  refine ⟨rfl, ?_, rfl, ?_, ?_, ?_⟩
  · exact poll_le_deadline behavior pids (deadlineTicks + 1) 0 (by omega) (by omega)
  · intro hprompt
    have hdead : pids.any (fun bp =>
        is_process_alive behavior deadlineTicks bp.pid) = false := by
      rw [List.any_eq_false]
      intro bp hbp
      obtain ⟨k, hk, hbk⟩ := hprompt bp hbp
      unfold is_process_alive
      rw [hbk]
      simp
      omega
    obtain ⟨h1, _⟩ := poll_exits behavior pids deadlineTicks (le_refl _) hdead
      (deadlineTicks + 1) 0 (by omega) (by omega)
    rw [List.any_eq_false] at h1
    constructor
    · unfold kill_background_pids
      simp only
      rw [List.filter_eq_nil_iff]
      intro bp hbp
      exact h1 bp hbp
    · intro bp hbp
      simpa using h1 bp hbp
  · intro bp hbp hignore
    unfold kill_background_pids
    simp only
    rw [List.mem_filter]
    refine ⟨hbp, ?_⟩
    unfold is_process_alive
    rw [hignore]
  · intro bp hbp hgone
    have halive : ∀ t, is_process_alive behavior t bp.pid = false := by
      intro t
      unfold is_process_alive
      rw [hgone]
      simp
    refine ⟨halive _, ?_⟩
    unfold kill_background_pids
    simp only
    rw [List.mem_filter]
    intro hc
    rw [halive _] at hc
    exact absurd hc.2 (by simp)

/-- Witness for C5: one prompt exiter, one process that ignores the
graceful signal, one pid that had already exited. -/
theorem C5_kill_two_phase_witness :
    (kill_background_pids
        (fun p => if p = 11 then some 2 else if p = 12 then none else some 0)
        [⟨11, "a", "a.sh"⟩, ⟨12, "b", "b.sh"⟩, ⟨13, "c", "c.sh"⟩]).break_tick ≤
      deadlineTicks ∧
    (⟨12, "b", "b.sh"⟩ : BackgroundPid) ∈ (kill_background_pids
        (fun p => if p = 11 then some 2 else if p = 12 then none else some 0)
        [⟨11, "a", "a.sh"⟩, ⟨12, "b", "b.sh"⟩, ⟨13, "c", "c.sh"⟩]).killed ∧
    (⟨13, "c", "c.sh"⟩ : BackgroundPid) ∉ (kill_background_pids
        (fun p => if p = 11 then some 2 else if p = 12 then none else some 0)
        [⟨11, "a", "a.sh"⟩, ⟨12, "b", "b.sh"⟩, ⟨13, "c", "c.sh"⟩]).killed := by
  have h := C5_kill_two_phase
    (fun p => if p = 11 then some 2 else if p = 12 then none else some 0)
    [⟨11, "a", "a.sh"⟩, ⟨12, "b", "b.sh"⟩, ⟨13, "c", "c.sh"⟩]
  refine ⟨h.2.1, ?_, ?_⟩
  · exact h.2.2.2.2.1 ⟨12, "b", "b.sh"⟩ (by decide) (by decide)
  · exact (h.2.2.2.2.2 ⟨13, "c", "c.sh"⟩ (by decide) (by decide)).2

/-- One repository entry of a session record, from `SessionRepo` in
session.rs. -/
structure SessionRepo where
  name : String
  worktree_path : String
  original_repo_path : String
  deriving DecidableEq, Repr

/-- A session record, from `SessionInfo` in session.rs (only the fields the
stop path consults). -/
structure SessionInfo where
  name : String
  branch : String
  repos : List SessionRepo
  deriving DecidableEq, Repr

/-- The on-disk state touched by commands/stop.rs `run`: the lock directory,
the set of git worktrees, the session directory names present, and the
session names whose directory holds a background_pids.json file. -/
structure StopWorld where
  locks : LockState
  worktrees : List Worktree
  session_dirs : List String
  bg_files : List String
  deriving DecidableEq, Repr

/-- One iteration of the lock-release loop of commands/stop.rs `run`: for a
repository of the stopped session, when the configuration marks it exclusive
and the lock file currently records this session as the holder, release the
lock; otherwise leave the lock directory unchanged. -/
def stop_lock_step (exclusive : String → Bool) (sname : String)
    (acc : LockState) (repo : SessionRepo) : LockState :=
  if exclusive repo.name then
    match check_lock acc repo.name with
    | some li => if li.session = sname then release_lock acc repo.name else acc
    | none => acc
  else acc

/-- The lock-release loop of commands/stop.rs `run` over the stopped
session's repositories. -/
def stop_release_locks (exclusive : String → Bool) (sname : String)
    (repos : List SessionRepo) (locks : LockState) : LockState :=
  repos.foldl (stop_lock_step exclusive sname) locks

/-- commands/stop.rs `run` on a session: kill its recorded background pids,
run teardown scripts (no effect on the state modelled here), remove every
worktree of the session, release the exclusive locks this session holds, and
delete the session directory, which also deletes the background_pids.json
inside it. Branch deletion acts on git branch state, which is outside this
model. -/
def stop_run (exclusive : String → Bool) (w : StopWorld) (session : SessionInfo) :
    StopWorld :=
  { locks := stop_release_locks exclusive session.name session.repos w.locks
    worktrees := session.repos.foldl (fun acc repo =>
      acc.erase ⟨repo.original_repo_path, repo.worktree_path⟩) w.worktrees
    session_dirs := w.session_dirs.erase session.name
    bg_files := w.bg_files.erase session.name }

theorem stop_lock_step_release (exclusive : String → Bool) (sname : String)
    (acc : LockState) (repo : SessionRepo) (li : LockInfo)
    (he : exclusive repo.name = true) (hca : check_lock acc repo.name = some li)
    (hs : li.session = sname) :
    stop_lock_step exclusive sname acc repo = release_lock acc repo.name := by
  simp [stop_lock_step, he, hca, hs]

theorem stop_lock_step_keep (exclusive : String → Bool) (sname : String)
    (acc : LockState) (repo : SessionRepo) :
    stop_lock_step exclusive sname acc repo = acc ∨
    (∃ li, check_lock acc repo.name = some li ∧ li.session = sname ∧
      stop_lock_step exclusive sname acc repo = release_lock acc repo.name) := by
  unfold stop_lock_step
  by_cases he : exclusive repo.name
  · cases hca : check_lock acc repo.name with
    | none => left; simp [he]
    | some li =>
      by_cases hs : li.session = sname
      · right; exact ⟨li, rfl, hs, by simp [he, hs]⟩
      · left; simp [he, hs]
  · left; simp [he]

theorem stop_lock_step_sublist (exclusive : String → Bool) (sname : String)
    (acc : LockState) (repo : SessionRepo) :
    List.Sublist (stop_lock_step exclusive sname acc repo) acc := by
  rcases stop_lock_step_keep exclusive sname acc repo with h | ⟨li, _, _, h⟩
  · rw [h]
  · rw [h]
    exact List.eraseP_sublist acc

theorem stop_lock_step_wf (exclusive : String → Bool) (sname : String)
    (acc : LockState) (repo : SessionRepo) (hWF : LockWF acc) :
    LockWF (stop_lock_step exclusive sname acc repo) :=
  ((stop_lock_step_sublist exclusive sname acc repo).map Prod.fst).nodup hWF

theorem erase_fold_sublist (repos : List SessionRepo) :
    ∀ ws : List Worktree,
      List.Sublist (repos.foldl (fun acc repo =>
        acc.erase ⟨repo.original_repo_path, repo.worktree_path⟩) ws) ws := by
  induction repos with
  | nil => intro ws; exact List.Sublist.refl ws
  | cons a l ih =>
    intro ws
    rw [List.foldl_cons]
    exact (ih _).trans (List.erase_sublist _ ws)

theorem stop_removes_worktrees (repos : List SessionRepo) :
    ∀ ws : List Worktree, ws.Nodup → ∀ r ∈ repos,
      (⟨r.original_repo_path, r.worktree_path⟩ : Worktree) ∉
        repos.foldl (fun acc repo =>
          acc.erase ⟨repo.original_repo_path, repo.worktree_path⟩) ws := by
  induction repos with
  | nil => intro ws _ r hr; simp at hr
  | cons a l ih =>
    intro ws hnd r hr
    rw [List.foldl_cons]
    have hnd2 : (ws.erase (⟨a.original_repo_path, a.worktree_path⟩ : Worktree)).Nodup :=
      (List.erase_sublist _ ws).nodup hnd
    rcases List.mem_cons.mp hr with hra | hrl
    · subst hra
      intro hc
      exact hnd.not_mem_erase ((erase_fold_sublist l _).subset hc)
    · exact ih _ hnd2 r hrl

theorem stop_locks_sublist (exclusive : String → Bool) (sname : String)
    (repos : List SessionRepo) :
    ∀ acc : LockState,
      List.Sublist (stop_release_locks exclusive sname repos acc) acc := by
  induction repos with
  | nil => intro acc; exact List.Sublist.refl acc
  | cons a l ih =>
    intro acc
    unfold stop_release_locks
    rw [List.foldl_cons]
    exact (ih _).trans (stop_lock_step_sublist exclusive sname acc a)

theorem check_none_of_sublist (st st2 : LockState) (rn : String)
    (hsub : List.Sublist st2 st) (h : check_lock st rn = none) :
    check_lock st2 rn = none :=
  lookup_eq_none_of_forall st2 rn
    (fun p hp => forall_of_lookup_eq_none st rn h p (hsub.subset hp))

theorem stop_lock_step_check_ne (exclusive : String → Bool) (sname : String)
    (acc : LockState) (repo : SessionRepo) (rn : String) (hne : rn ≠ repo.name) :
    check_lock (stop_lock_step exclusive sname acc repo) rn = check_lock acc rn := by
  rcases stop_lock_step_keep exclusive sname acc repo with h | ⟨li, _, _, h⟩
  · rw [h]
  · rw [h]
    unfold release_lock
    rw [check_lock, lookup_eraseP_ne acc rn repo.name hne]
    rfl

theorem stop_releases_own_locks (exclusive : String → Bool) (sname : String)
    (repos : List SessionRepo) :
    ∀ (acc : LockState) (rn : String) (li : LockInfo), LockWF acc →
      check_lock acc rn = some li → li.session = sname → exclusive rn = true →
      (∃ repo ∈ repos, repo.name = rn) →
      check_lock (stop_release_locks exclusive sname repos acc) rn = none := by
  induction repos with
  | nil =>
    intro acc rn li _ _ _ _ hmem
    obtain ⟨repo, hr, _⟩ := hmem
    simp at hr
  | cons a l ih =>
    intro acc rn li hWF hsome hses hex hmem
    unfold stop_release_locks
    rw [List.foldl_cons]
    by_cases han : a.name = rn
    · have hstep : stop_lock_step exclusive sname acc a = release_lock acc a.name :=
        stop_lock_step_release exclusive sname acc a li (han ▸ hex)
          (by rw [han]; exact hsome) hses
      rw [hstep]
      have hnone : check_lock (release_lock acc a.name) rn = none := by
        rw [han]
        exact lookup_eraseP_self acc rn hWF
      exact check_none_of_sublist _ _ rn (stop_locks_sublist exclusive sname l _) hnone
    · obtain ⟨repo, hrepo, hrn⟩ := hmem
      have hrl : repo ∈ l := by
        rcases List.mem_cons.mp hrepo with hc | hc
        · exact absurd (hc ▸ hrn) han
        · exact hc
      have hsome2 : check_lock (stop_lock_step exclusive sname acc a) rn = some li := by
        rw [stop_lock_step_check_ne exclusive sname acc a rn (fun hc => han hc.symm)]
        exact hsome
      exact ih _ rn li (stop_lock_step_wf exclusive sname acc a hWF) hsome2 hses hex
        ⟨repo, hrl, hrn⟩

theorem stop_preserves_other_locks (exclusive : String → Bool) (sname : String)
    (repos : List SessionRepo) :
    ∀ (acc : LockState) (rn : String) (li : LockInfo), LockWF acc →
      check_lock acc rn = some li → li.session ≠ sname →
      check_lock (stop_release_locks exclusive sname repos acc) rn = some li := by
  induction repos with
  | nil => intro acc rn li _ hsome _; exact hsome
  | cons a l ih =>
    intro acc rn li hWF hsome hses
    unfold stop_release_locks
    rw [List.foldl_cons]
    have hsome2 : check_lock (stop_lock_step exclusive sname acc a) rn = some li := by
      by_cases han : rn = a.name
      · rcases stop_lock_step_keep exclusive sname acc a with h | ⟨li2, hca, hs, h⟩
        · rw [h]; exact hsome
        · rw [han, hca] at hsome
          rw [Option.some.injEq] at hsome
          exact absurd (hsome ▸ hs) hses
      · rw [stop_lock_step_check_ne exclusive sname acc a rn han]
        exact hsome
    exact ih _ rn li (stop_lock_step_wf exclusive sname acc a hWF) hsome2 hses

/-- Counterexample to C8 as stated: a lock file whose recorded session name
equals the stopped session's name, but kept for a repository outside the
session's repo list, survives `stop`; the stop path only releases locks for
repositories of the session that the configuration marks exclusive. -/
theorem C8_stop_cleanup_counterexample :
    check_lock (stop_run (fun _ => true)
      { locks := [("db", ⟨"S", 0⟩)]
        worktrees := [⟨"/r/api", "/s/S/api"⟩]
        session_dirs := ["S"]
        bg_files := ["S"] }
      { name := "S", branch := "b"
        repos := [⟨"api", "/s/S/api", "/r/api"⟩] }).locks "db" = some ⟨"S", 0⟩ := by
  rfl

/-- C8 (amended): running `stop` on a session removes its
background_pids.json, removes every one of the session's worktrees, deletes
the session directory, and releases every lock whose repository is in the
session's repo list and marked exclusive in the configuration and whose
recorded session name equals this session's name. -/
theorem C8_stop_cleanup (exclusive : String → Bool) (w : StopWorld)
    (s : SessionInfo) (hWF : LockWF w.locks) (hwt : w.worktrees.Nodup)
    (hsd : w.session_dirs.Nodup) (hbg : w.bg_files.Nodup) :
    s.name ∉ (stop_run exclusive w s).session_dirs ∧
    s.name ∉ (stop_run exclusive w s).bg_files ∧
    (∀ r ∈ s.repos, (⟨r.original_repo_path, r.worktree_path⟩ : Worktree) ∉
      (stop_run exclusive w s).worktrees) ∧
    (∀ rn li, check_lock w.locks rn = some li → li.session = s.name →
      exclusive rn = true → (∃ repo ∈ s.repos, repo.name = rn) →
      check_lock (stop_run exclusive w s).locks rn = none) := by
  refine ⟨hsd.not_mem_erase, hbg.not_mem_erase, ?_, ?_⟩
  · intro r hr
    exact stop_removes_worktrees s.repos w.worktrees hwt r hr
  · intro rn li hsome hses hex hmem
    exact stop_releases_own_locks exclusive s.name s.repos w.locks rn li hWF hsome
      hses hex hmem

/-- Witness for C8 (amended) at a concrete world: the stopped session's
directory, pid file and worktree are gone and its exclusive lock released. -/
theorem C8_stop_cleanup_witness :
    "S" ∉ (stop_run (fun _ => true)
      { locks := [("api", ⟨"S", 0⟩)]
        worktrees := [⟨"/r/api", "/s/S/api"⟩]
        session_dirs := ["S", "T"]
        bg_files := ["S"] }
      { name := "S", branch := "b"
        repos := [⟨"api", "/s/S/api", "/r/api"⟩] }).session_dirs ∧
    (⟨"/r/api", "/s/S/api"⟩ : Worktree) ∉ (stop_run (fun _ => true)
      { locks := [("api", ⟨"S", 0⟩)]
        worktrees := [⟨"/r/api", "/s/S/api"⟩]
        session_dirs := ["S", "T"]
        bg_files := ["S"] }
      { name := "S", branch := "b"
        repos := [⟨"api", "/s/S/api", "/r/api"⟩] }).worktrees ∧
    check_lock (stop_run (fun _ => true)
      { locks := [("api", ⟨"S", 0⟩)]
        worktrees := [⟨"/r/api", "/s/S/api"⟩]
        session_dirs := ["S", "T"]
        bg_files := ["S"] }
      { name := "S", branch := "b"
        repos := [⟨"api", "/s/S/api", "/r/api"⟩] }).locks "api" = none := by
  have h := C8_stop_cleanup (fun _ => true)
    { locks := [("api", ⟨"S", 0⟩)]
      worktrees := [⟨"/r/api", "/s/S/api"⟩]
      session_dirs := ["S", "T"]
      bg_files := ["S"] }
    { name := "S", branch := "b"
      repos := [⟨"api", "/s/S/api", "/r/api"⟩] }
    (by unfold LockWF; decide) (by decide) (by decide) (by decide)
  refine ⟨h.1, ?_, ?_⟩
  · exact h.2.2.1 ⟨"api", "/s/S/api", "/r/api"⟩ (by decide)
  · exact h.2.2.2 "api" ⟨"S", 0⟩ (by decide) rfl rfl
      ⟨⟨"api", "/s/S/api", "/r/api"⟩, by decide, rfl⟩

/-- C10: `stop` never releases a lock owned by another session: every lock
file recording a session name different from the stopped session's name is
left unchanged, even when its repository belongs to the stopped session. -/
theorem C10_stop_other_locks_unchanged (exclusive : String → Bool)
    (w : StopWorld) (s : SessionInfo) (hWF : LockWF w.locks) :
    ∀ rn li, check_lock w.locks rn = some li → li.session ≠ s.name →
      check_lock (stop_run exclusive w s).locks rn = some li :=
  fun rn li hsome hne =>
    stop_preserves_other_locks exclusive s.name s.repos w.locks rn li hWF hsome hne

/-- Witness for C10: a repository of the stopped session whose lock is held
by a different session keeps its lock across `stop`. -/
theorem C10_stop_other_locks_unchanged_witness :
    check_lock (stop_run (fun _ => true)
      { locks := [("api", ⟨"T", 5⟩)]
        worktrees := [⟨"/r/api", "/s/S/api"⟩]
        session_dirs := ["S", "T"]
        bg_files := [] }
      { name := "S", branch := "b"
        repos := [⟨"api", "/s/S/api", "/r/api"⟩] }).locks "api" = some ⟨"T", 5⟩ :=
  C10_stop_other_locks_unchanged (fun _ => true)
    { locks := [("api", ⟨"T", 5⟩)]
      worktrees := [⟨"/r/api", "/s/S/api"⟩]
      session_dirs := ["S", "T"]
      bg_files := [] }
    { name := "S", branch := "b"
      repos := [⟨"api", "/s/S/api", "/r/api"⟩] }
    (by unfold LockWF; decide) "api" ⟨"T", 5⟩ (by decide) (by decide)

/-- A parsed session record as the doctor pass sees it: the session name and
its (repository name, worktree path) pairs. -/
structure SessRec where
  name : String
  repos : List (String × String)
  deriving DecidableEq, Repr

/-- The on-disk state read by commands/doctor.rs `run`: the parseable session
records, the session directory names holding a session.json, all session
directory names, the filesystem paths that exist, the lock directory, and
the worktree registrations reported by git per repository. -/
structure DoctorWorld where
  sessions : List SessRec
  json_dirs : List String
  all_dirs : List String
  disk_paths : List String
  locks : LockState
  git_worktrees : List (String × String)
  deriving DecidableEq, Repr

/-- The issues the read pass of commands/doctor.rs `run` can flag. -/
inductive Issue where
  | missingWorktree (session repo path : String)
  | orphanedWorktree (repo path : String)
  | staleSessionDir (dir : String)
  | staleLock (repo session : String)
  deriving DecidableEq, Repr

/-- The read pass of commands/doctor.rs `run`: flag session repos whose
worktree directory is missing on disk, worktrees under the sesh area not
owned by any session, session directories without a session.json, and lock
files naming a session absent from the registry. Pure: it only produces the
issue list. -/
def doctor_read (seshDir : String) (w : DoctorWorld) : List Issue :=
  (w.sessions.flatMap (fun s => s.repos.filterMap (fun rp =>
      if rp.2 ∈ w.disk_paths then none
      else some (Issue.missingWorktree s.name rp.1 rp.2)))) ++
  (w.git_worktrees.filterMap (fun rw =>
      if seshDir.isPrefixOf rw.2 then
        if w.sessions.any (fun s => s.repos.any (fun rp => rp.2 == rw.2)) then none
        else some (Issue.orphanedWorktree rw.1 rw.2)
      else none)) ++
  (w.all_dirs.filterMap (fun d =>
      if d ∈ w.json_dirs then none else some (Issue.staleSessionDir d))) ++
  ((list_locks w.locks).filterMap (fun rl =>
      if session_exists w.json_dirs rl.2.session then none
      else some (Issue.staleLock rl.1 rl.2.session)))

/-- The write pass of commands/doctor.rs `run` (after confirmation): prune
git worktree registrations whose directory no longer exists, remove session
directories lacking a session.json (deleting the paths inside them, modelled
by the collaborator predicate `under_dir`, which says whether a path lies
inside a given session directory), and remove the stale lock files collected
by the read pass. Session records and registered directories are not
touched. -/
def doctor_fix (under_dir : String → String → Bool) (w : DoctorWorld) :
    DoctorWorld :=
  let stale_dirs := w.all_dirs.filter (fun d => d ∉ w.json_dirs)
  let stale_locks := (list_locks w.locks).filterMap (fun rl =>
      if session_exists w.json_dirs rl.2.session then none else some rl.1)
  { sessions := w.sessions
    json_dirs := w.json_dirs
    all_dirs := w.all_dirs.filter (fun d => d ∈ w.json_dirs)
    disk_paths := w.disk_paths.filter
      (fun p => !(stale_dirs.any (fun d => under_dir d p)))
    locks := stale_locks.foldl (fun acc rn => release_lock acc rn) w.locks
    git_worktrees := w.git_worktrees.filter (fun rw => rw.2 ∈ w.disk_paths) }

/-- commands/doctor.rs `run`: the read pass, then, only when issues were
found and the operator confirms, the write pass. -/
def doctor_run (seshDir : String) (under_dir : String → String → Bool)
    (w : DoctorWorld) (confirm : Bool) : DoctorWorld × List Issue :=
  let issues := doctor_read seshDir w
  if issues.isEmpty then (w, issues)
  else if confirm then (doctor_fix under_dir w, issues) else (w, issues)

theorem lookup_of_mem_wf (st : LockState) (k : String) (v : LockInfo)
    (hWF : LockWF st) (hmem : (k, v) ∈ st) : st.lookup k = some v := by
  induction st with
  | nil => simp at hmem
  | cons a l ih =>
    simp only [LockWF, List.map_cons, List.nodup_cons] at hWF
    rcases List.mem_cons.mp hmem with heq | hl
    · rw [← heq, List.lookup]
      simp
    · have hka : (k == a.1) = false := by
        rw [beq_eq_false_iff_ne]
        intro hc
        exact hWF.1 (by
          rw [hc] at hl
          simpa using List.mem_map_of_mem Prod.fst hl)
      rw [List.lookup, hka]
      exact ih hWF.2 hl

theorem release_fold_preserve (rns : List String) :
    ∀ (acc : LockState) (rn : String), rn ∉ rns →
      check_lock (rns.foldl (fun a r => release_lock a r) acc) rn =
        check_lock acc rn := by
  induction rns with
  | nil => intro acc rn _; rfl
  | cons r rs ih =>
    intro acc rn hrn
    rw [List.foldl_cons]
    have hne : rn ≠ r := fun hc => hrn (hc ▸ List.mem_cons_self r rs)
    rw [ih (release_lock acc r) rn (fun hc => hrn (List.mem_cons_of_mem r hc))]
    unfold release_lock
    rw [check_lock, lookup_eraseP_ne acc rn r hne]
    rfl

/-- C7: the read pass flags every session repo whose worktree directory is
missing and every lock naming a session absent from the registry, and
without explicit confirmation no state changes; the write pass keeps every
registered session directory, every disk path not inside a stale session
directory, every git worktree registration whose directory still exists, and
every lock held by a session that still exists, and it never touches the
session records. -/
theorem C7_doctor_passes (seshDir : String) (under_dir : String → String → Bool)
    (w : DoctorWorld) (hWF : LockWF w.locks) :
    (∀ s ∈ w.sessions, ∀ rp ∈ s.repos, rp.2 ∉ w.disk_paths →
      Issue.missingWorktree s.name rp.1 rp.2 ∈ doctor_read seshDir w) ∧
    (∀ rl ∈ list_locks w.locks, session_exists w.json_dirs rl.2.session = false →
      Issue.staleLock rl.1 rl.2.session ∈ doctor_read seshDir w) ∧
    (doctor_run seshDir under_dir w false).1 = w ∧
    (∀ d ∈ w.all_dirs, d ∈ w.json_dirs → d ∈ (doctor_fix under_dir w).all_dirs) ∧
    (∀ p ∈ w.disk_paths,
      (∀ d ∈ w.all_dirs, d ∉ w.json_dirs → under_dir d p = false) →
      p ∈ (doctor_fix under_dir w).disk_paths) ∧
    (∀ rw ∈ w.git_worktrees, rw.2 ∈ w.disk_paths →
      rw ∈ (doctor_fix under_dir w).git_worktrees) ∧
    (∀ rn li, check_lock w.locks rn = some li →
      session_exists w.json_dirs li.session = true →
      check_lock (doctor_fix under_dir w).locks rn = some li) ∧
    (doctor_fix under_dir w).sessions = w.sessions := by
  refine ⟨?_, ?_, ?_, ?_, ?_, ?_, ?_, rfl⟩
  · intro s hs rp hrp hmiss
    unfold doctor_read
    rw [List.mem_append]
    left
    rw [List.mem_append]
    left
    rw [List.mem_append]
    left
    rw [List.mem_flatMap]
    refine ⟨s, hs, ?_⟩
    rw [List.mem_filterMap]
    exact ⟨rp, hrp, by rw [if_neg hmiss]⟩
  · intro rl hrl hstale
    unfold doctor_read
    rw [List.mem_append]
    right
    rw [List.mem_filterMap]
    refine ⟨rl, hrl, ?_⟩
    rw [if_neg (by rw [hstale]; exact Bool.false_ne_true)]
  · unfold doctor_run
    by_cases h : (doctor_read seshDir w).isEmpty
    · simp [h]
    · simp [h]
  · intro d hd hjson
    unfold doctor_fix
    simp only [List.mem_filter]
    exact ⟨hd, by simpa using hjson⟩
  · intro p hp hnot
    unfold doctor_fix
    simp only [List.mem_filter]
    refine ⟨hp, ?_⟩
    rw [Bool.not_eq_eq_eq_not, Bool.not_true]
    rw [List.any_eq_false]
    intro d hd
    rw [List.mem_filter] at hd
    have hdj : d ∉ w.json_dirs := by simpa using hd.2
    rw [hnot d hd.1 hdj]
    simp
  · intro rw2 hrw hexists
    unfold doctor_fix
    simp only [List.mem_filter]
    exact ⟨hrw, by simpa using hexists⟩
  · intro rn li hsome hlive
    unfold doctor_fix
    simp only
    have hnotstale : rn ∉ (list_locks w.locks).filterMap (fun rl =>
        if session_exists w.json_dirs rl.2.session then none else some rl.1) := by
      intro hc
      rw [List.mem_filterMap] at hc
      obtain ⟨rl, hrl, hrl2⟩ := hc
      by_cases hse : session_exists w.json_dirs rl.2.session
      · rw [if_pos hse] at hrl2
        exact Option.noConfusion hrl2
      · rw [if_neg hse] at hrl2
        rw [Option.some.injEq] at hrl2
        have : w.locks.lookup rn = some rl.2 :=
          lookup_of_mem_wf w.locks rn rl.2 hWF (by rw [← hrl2]; exact hrl)
        rw [show w.locks.lookup rn = check_lock w.locks rn from rfl, hsome] at this
        rw [Option.some.injEq] at this
        rw [this] at hlive
        exact hse hlive
    rw [release_fold_preserve _ w.locks rn hnotstale]
    exact hsome

/-- Witness for C7: a world with one healthy session, one missing worktree,
one stale directory and one stale lock. -/
theorem C7_doctor_passes_witness :
    (Issue.missingWorktree "S" "api" "/s/S/api" ∈ doctor_read "/p/.sesh"
      { sessions := [⟨"S", [("api", "/s/S/api")]⟩, ⟨"T", [("web", "/s/T/web")]⟩]
        json_dirs := ["S", "T"]
        all_dirs := ["S", "T", "junk"]
        disk_paths := ["/s/T/web"]
        locks := [("api", ⟨"gone", 0⟩), ("web", ⟨"T", 1⟩)]
        git_worktrees := [("web", "/s/T/web")] }) ∧
    (Issue.staleLock "api" "gone" ∈ doctor_read "/p/.sesh"
      { sessions := [⟨"S", [("api", "/s/S/api")]⟩, ⟨"T", [("web", "/s/T/web")]⟩]
        json_dirs := ["S", "T"]
        all_dirs := ["S", "T", "junk"]
        disk_paths := ["/s/T/web"]
        locks := [("api", ⟨"gone", 0⟩), ("web", ⟨"T", 1⟩)]
        git_worktrees := [("web", "/s/T/web")] }) ∧
    check_lock (doctor_fix (fun d p => d == "junk" && p == "/s/junk/x")
      { sessions := [⟨"S", [("api", "/s/S/api")]⟩, ⟨"T", [("web", "/s/T/web")]⟩]
        json_dirs := ["S", "T"]
        all_dirs := ["S", "T", "junk"]
        disk_paths := ["/s/T/web"]
        locks := [("api", ⟨"gone", 0⟩), ("web", ⟨"T", 1⟩)]
        git_worktrees := [("web", "/s/T/web")] }).locks "web" = some ⟨"T", 1⟩ := by
  have h := C7_doctor_passes "/p/.sesh" (fun d p => d == "junk" && p == "/s/junk/x")
    { sessions := [⟨"S", [("api", "/s/S/api")]⟩, ⟨"T", [("web", "/s/T/web")]⟩]
      json_dirs := ["S", "T"]
      all_dirs := ["S", "T", "junk"]
      disk_paths := ["/s/T/web"]
      locks := [("api", ⟨"gone", 0⟩), ("web", ⟨"T", 1⟩)]
      git_worktrees := [("web", "/s/T/web")] }
    (by unfold LockWF; decide)
  refine ⟨?_, ?_, ?_⟩
  · exact h.1 ⟨"S", [("api", "/s/S/api")]⟩ (by decide) ("api", "/s/S/api")
      (by decide) (by decide)
  · exact h.2.1 ("api", ⟨"gone", 0⟩) (by decide) (by decide)
  · exact h.2.2.2.2.2.2.1 "web" ⟨"T", 1⟩ (by decide) (by decide)

/-- The observable side-effecting steps of commands/start.rs `run`, in the
order the code performs them. -/
inductive Event where
  | fetch (repo : String)
  | createWorktree (repo : String)
  | removeWorktree (repo : String)
  | saveSession
  | copyFiles
  | writeMcp
  | generateContext
  | copySessionFiles
  | lockCheck (repo : String)
  | lockAcquire (repo : String)
  | runScript (path : String)
  | spawnScript (path : String)
  deriving DecidableEq, Repr

/-- A configured setup script, from `ScriptEntry` in config.rs: its path and
whether it runs in the background. -/
structure ScriptEntry where
  path : String
  background : Bool
  deriving DecidableEq, Repr

/-- The provisioning phase of commands/start.rs `run` (step 5) as a trace:
fetch then create per repository; on the first creation failure, emit the
rollback removals (reverse creation order) and stop with failure. -/
def provision_events (createOk : String → Bool) :
    List String → List String → List Event × Bool
  | [], _ => ([], true)
  | r :: rest, created =>
      if createOk r then
        let p := provision_events createOk rest (created ++ [r])
        ([Event.fetch r, Event.createWorktree r] ++ p.1, p.2)
      else
        ([Event.fetch r] ++ created.reverse.map Event.removeWorktree, false)

/-- Steps 7 to 9 of commands/start.rs `run` between the registry write and
lock arbitration: per-repo file copies and symlinks (failures only warn),
.mcp.json emission when servers are configured (failure aborts), context
generation (failure aborts), and parent-dir copies (failures only warn). -/
def mid_events (hasMcp mcpOk ctxOk : Bool) : List Event × Bool :=
  if hasMcp then
    if mcpOk = false then ([Event.copyFiles, Event.writeMcp], false)
    else
      if ctxOk then
        ([Event.copyFiles, Event.writeMcp, Event.generateContext,
          Event.copySessionFiles], true)
      else ([Event.copyFiles, Event.writeMcp, Event.generateContext], false)
  else
    if ctxOk then
      ([Event.copyFiles, Event.generateContext, Event.copySessionFiles], true)
    else ([Event.copyFiles, Event.generateContext], false)

/-- The lock-arbitration phase of commands/start.rs `run` (step 10) as a
trace: each exclusive repository is checked and, when the lock is free or
stale, acquired (`lockFree` abstracts the decision of `arbitrate_one`). -/
def lock_events (exclusive lockFree : String → Bool) (repos : List String) :
    List Event :=
  repos.flatMap (fun r =>
    if exclusive r then
      Event.lockCheck r :: (if lockFree r then [Event.lockAcquire r] else [])
    else [])

/-- One list of configured scripts run in order, as in step 11 of
commands/start.rs `run`: background entries are spawned, foreground entries
are executed; the first failure aborts the run (the attempt still appears in
the trace). -/
def script_events (scriptOk : String → Bool) :
    List ScriptEntry → List Event × Bool
  | [] => ([], true)
  | e :: rest =>
      if e.background then
        if scriptOk e.path then
          let p := script_events scriptOk rest
          (Event.spawnScript e.path :: p.1, p.2)
        else ([Event.spawnScript e.path], false)
      else
        if scriptOk e.path then
          let p := script_events scriptOk rest
          (Event.runScript e.path :: p.1, p.2)
        else ([Event.runScript e.path], false)

/-- The per-repo setup scripts of step 11 of commands/start.rs `run`. -/
def repo_script_events (scriptOk : String → Bool)
    (repo_setup : String → List ScriptEntry) :
    List String → List Event × Bool
  | [] => ([], true)
  | r :: rest =>
      let p := script_events scriptOk (repo_setup r)
      if p.2 then
        let q := repo_script_events scriptOk repo_setup rest
        (p.1 ++ q.1, q.2)
      else (p.1, false)

/-- The script-execution phase of step 11: global setup scripts first, then
per-repo setup scripts. -/
def setup_events (scriptOk : String → Bool) (global_setup : List ScriptEntry)
    (repo_setup : String → List ScriptEntry) (repos : List String) :
    List Event :=
  let g := script_events scriptOk global_setup
  if g.2 then g.1 ++ (repo_script_events scriptOk repo_setup repos).1
  else g.1

/-- commands/start.rs `run` as an event trace: provision all worktrees; only
if all succeed, write the session record (step 6, `save_session`); only if
that write succeeds, run the intermediate file steps, then lock arbitration,
then (unless --no-setup) the setup scripts. Every failure truncates the
trace at the step that failed. -/
def start_trace (createOk : String → Bool) (saveOk hasMcp mcpOk ctxOk nosetup : Bool)
    (exclusive lockFree scriptOk : String → Bool)
    (global_setup : List ScriptEntry) (repo_setup : String → List ScriptEntry)
    (repos : List String) : List Event :=
  let p := provision_events createOk repos []
  if p.2 = false then p.1
  else
    p.1 ++ [Event.saveSession] ++
      (if saveOk = false then []
       else
         let m := mid_events hasMcp mcpOk ctxOk
         if m.2 = false then m.1
         else
           m.1 ++ lock_events exclusive lockFree repos ++
             (if nosetup then []
              else setup_events scriptOk global_setup repo_setup repos))

/-- Whether an event belongs to the worktree-provisioning phase. -/
def isProvisionEvent : Event → Bool
  | .fetch _ => true
  | .createWorktree _ => true
  | .removeWorktree _ => true
  | _ => false

/-- Whether an event is part of lock arbitration. -/
def isLockEvent : Event → Bool
  | .lockCheck _ => true
  | .lockAcquire _ => true
  | _ => false

/-- Whether an event executes or spawns a setup script. -/
def isScriptEvent : Event → Bool
  | .runScript _ => true
  | .spawnScript _ => true
  | _ => false

theorem provision_events_provision (createOk : String → Bool) :
    ∀ (repos created : List String),
      ∀ e ∈ (provision_events createOk repos created).1, isProvisionEvent e = true := by
  intro repos
  induction repos with
  | nil => intro created e he; simp [provision_events] at he
  | cons r rest ih =>
    intro created e he
    unfold provision_events at he
    by_cases hc : createOk r
    · rw [if_pos hc] at he
      simp only [List.cons_append, List.nil_append, List.mem_cons] at he
      rcases he with he | he | he
      · rw [he]; rfl
      · rw [he]; rfl
      · exact ih (created ++ [r]) e he
    · rw [if_neg hc] at he
      simp only [List.cons_append, List.nil_append, List.mem_cons] at he
      rcases he with he | he
      · rw [he]; rfl
      · rw [List.mem_map] at he
        obtain ⟨x, _, hx⟩ := he
        rw [← hx]
        rfl

theorem mid_events_tail_ok (hasMcp mcpOk ctxOk : Bool) :
    ∀ e ∈ (mid_events hasMcp mcpOk ctxOk).1,
      isProvisionEvent e = false ∧ e ≠ Event.saveSession := by
  intro e he
  have hmem : e = Event.copyFiles ∨ e = Event.writeMcp ∨
      e = Event.generateContext ∨ e = Event.copySessionFiles := by
    cases hasMcp <;> cases mcpOk <;> cases ctxOk <;>
      simp [mid_events] at he <;> tauto
  rcases hmem with h | h | h | h <;> rw [h] <;>
    exact ⟨rfl, by intro hc; exact Event.noConfusion hc⟩

theorem lock_events_tail_ok (exclusive lockFree : String → Bool)
    (repos : List String) :
    ∀ e ∈ lock_events exclusive lockFree repos,
      isProvisionEvent e = false ∧ e ≠ Event.saveSession := by
  intro e he
  unfold lock_events at he
  rw [List.mem_flatMap] at he
  obtain ⟨r, _, hr⟩ := he
  by_cases hex : exclusive r
  · rw [if_pos hex] at hr
    rcases List.mem_cons.mp hr with h1 | h2
    · rw [h1]
      exact ⟨rfl, by intro hc; exact Event.noConfusion hc⟩
    · by_cases hf : lockFree r
      · rw [if_pos hf] at h2
        rcases List.mem_cons.mp h2 with h3 | h3
        · rw [h3]
          exact ⟨rfl, by intro hc; exact Event.noConfusion hc⟩
        · simp at h3
      · rw [if_neg hf] at h2
        simp at h2
  · rw [if_neg hex] at hr
    simp at hr

theorem script_events_tail_ok (scriptOk : String → Bool) :
    ∀ (entries : List ScriptEntry), ∀ e ∈ (script_events scriptOk entries).1,
      isProvisionEvent e = false ∧ e ≠ Event.saveSession := by
  intro entries
  induction entries with
  | nil => intro e he; simp [script_events] at he
  | cons a rest ih =>
    intro e he
    unfold script_events at he
    by_cases hb : a.background
    · rw [if_pos hb] at he
      by_cases hs : scriptOk a.path
      · rw [if_pos hs] at he
        rcases List.mem_cons.mp he with h1 | h2
        · rw [h1]; exact ⟨rfl, by intro hc; exact Event.noConfusion hc⟩
        · exact ih e h2
      · rw [if_neg hs] at he
        rcases List.mem_cons.mp he with h1 | h2
        · rw [h1]; exact ⟨rfl, by intro hc; exact Event.noConfusion hc⟩
        · simp at h2
    · rw [if_neg hb] at he
      by_cases hs : scriptOk a.path
      · rw [if_pos hs] at he
        rcases List.mem_cons.mp he with h1 | h2
        · rw [h1]; exact ⟨rfl, by intro hc; exact Event.noConfusion hc⟩
        · exact ih e h2
      · rw [if_neg hs] at he
        rcases List.mem_cons.mp he with h1 | h2
        · rw [h1]; exact ⟨rfl, by intro hc; exact Event.noConfusion hc⟩
        · simp at h2

theorem repo_script_events_tail_ok (scriptOk : String → Bool)
    (repo_setup : String → List ScriptEntry) :
    ∀ (repos : List String), ∀ e ∈ (repo_script_events scriptOk repo_setup repos).1,
      isProvisionEvent e = false ∧ e ≠ Event.saveSession := by
  intro repos
  induction repos with
  | nil => intro e he; simp [repo_script_events] at he
  | cons r rest ih =>
    intro e he
    unfold repo_script_events at he
    by_cases hp : (script_events scriptOk (repo_setup r)).2
    · rw [if_pos hp] at he
      rcases List.mem_append.mp he with h1 | h2
      · exact script_events_tail_ok scriptOk (repo_setup r) e h1
      · exact ih e h2
    · rw [if_neg hp] at he
      exact script_events_tail_ok scriptOk (repo_setup r) e he

theorem setup_events_tail_ok (scriptOk : String → Bool)
    (global_setup : List ScriptEntry) (repo_setup : String → List ScriptEntry)
    (repos : List String) :
    ∀ e ∈ setup_events scriptOk global_setup repo_setup repos,
      isProvisionEvent e = false ∧ e ≠ Event.saveSession := by
  intro e he
  unfold setup_events at he
  by_cases hg : (script_events scriptOk global_setup).2
  · rw [if_pos hg] at he
    rcases List.mem_append.mp he with h1 | h2
    · exact script_events_tail_ok scriptOk global_setup e h1
    · exact repo_script_events_tail_ok scriptOk repo_setup repos e h2
  · rw [if_neg hg] at he
    exact script_events_tail_ok scriptOk global_setup e he

/-- C3: every start trace splits as a provisioning prefix followed, when
provisioning (and nothing earlier) failed, by nothing, and otherwise by the
registry write and a tail; the prefix holds every worktree-creation event
and no lock or script event, and the tail holds no worktree-creation event
and no second registry write — so the session record is written strictly
after all worktree creations and strictly before lock arbitration and before
any setup script, and no script runs before the registry write. -/
theorem C3_registry_write_ordering (createOk : String → Bool)
    (saveOk hasMcp mcpOk ctxOk nosetup : Bool)
    (exclusive lockFree scriptOk : String → Bool)
    (global_setup : List ScriptEntry) (repo_setup : String → List ScriptEntry)
    (repos : List String) :
    ∃ pre post,
      start_trace createOk saveOk hasMcp mcpOk ctxOk nosetup exclusive lockFree
        scriptOk global_setup repo_setup repos = pre ++ post ∧
      (∀ e ∈ pre, isProvisionEvent e = true) ∧
      (∀ e ∈ pre, isLockEvent e = false ∧ isScriptEvent e = false) ∧
      (post = [] ∨ ∃ tail, post = Event.saveSession :: tail ∧
        ∀ e ∈ tail, isProvisionEvent e = false ∧ e ≠ Event.saveSession) := by
  unfold start_trace
  by_cases hp : (provision_events createOk repos []).2 = false
  · rw [if_pos hp]
    refine ⟨(provision_events createOk repos []).1, [], by simp, ?_, ?_, Or.inl rfl⟩
    · exact provision_events_provision createOk repos []
    · intro e he
      have h := provision_events_provision createOk repos [] e he
      cases e <;> first
        | exact ⟨rfl, rfl⟩
        | exact absurd h (by simp [isProvisionEvent])
  · rw [if_neg hp]
    refine ⟨(provision_events createOk repos []).1,
      Event.saveSession ::
        (if saveOk = false then []
         else
           let m := mid_events hasMcp mcpOk ctxOk
           if m.2 = false then m.1
           else
             m.1 ++ lock_events exclusive lockFree repos ++
               (if nosetup then []
                else setup_events scriptOk global_setup repo_setup repos)),
      by rw [List.append_assoc]; rfl, ?_, ?_, ?_⟩
    · exact provision_events_provision createOk repos []
    · intro e he
      have h := provision_events_provision createOk repos [] e he
      cases e <;> first
        | exact ⟨rfl, rfl⟩
        | exact absurd h (by simp [isProvisionEvent])
    · right
      refine ⟨_, rfl, ?_⟩
      intro e he
      by_cases hs : saveOk = false
      · rw [if_pos hs] at he
        simp at he
      · rw [if_neg hs] at he
        simp only at he
        by_cases hm : (mid_events hasMcp mcpOk ctxOk).2 = false
        · rw [if_pos hm] at he
          exact mid_events_tail_ok hasMcp mcpOk ctxOk e he
        · rw [if_neg hm] at he
          rcases List.mem_append.mp he with h1 | h2
          · rcases List.mem_append.mp h1 with h3 | h4
            · exact mid_events_tail_ok hasMcp mcpOk ctxOk e h3
            · exact lock_events_tail_ok exclusive lockFree repos e h4
          · by_cases hn : nosetup
            · rw [if_pos hn] at h2
              simp at h2
            · rw [if_neg hn] at h2
              exact setup_events_tail_ok scriptOk global_setup repo_setup repos e h2

/-- Witness for C3 at a concrete run: one repository, one global background
setup script, an exclusive lock; the trace puts the registry write after the
worktree creation and before the lock check and the script spawn. -/
theorem C3_registry_write_ordering_witness :
    (∃ pre post,
      start_trace (fun _ => true) true false true true false
        (fun _ => true) (fun _ => true) (fun _ => true)
        [⟨"dev.sh", true⟩] (fun _ => []) ["api"] = pre ++ post ∧
      (∀ e ∈ pre, isProvisionEvent e = true) ∧
      (∀ e ∈ pre, isLockEvent e = false ∧ isScriptEvent e = false) ∧
      (post = [] ∨ ∃ tail, post = Event.saveSession :: tail ∧
        ∀ e ∈ tail, isProvisionEvent e = false ∧ e ≠ Event.saveSession)) ∧
    start_trace (fun _ => true) true false true true false
        (fun _ => true) (fun _ => true) (fun _ => true)
        [⟨"dev.sh", true⟩] (fun _ => []) ["api"] =
      [Event.fetch "api", Event.createWorktree "api", Event.saveSession,
       Event.copyFiles, Event.generateContext, Event.copySessionFiles,
       Event.lockCheck "api", Event.lockAcquire "api",
       Event.spawnScript "dev.sh"] := by
  constructor
  · exact C3_registry_write_ordering (fun _ => true) true false true true false
      (fun _ => true) (fun _ => true) (fun _ => true)
      [⟨"dev.sh", true⟩] (fun _ => []) ["api"]
  · rfl

/-- The outcome of steps 10 and 11 of commands/start.rs `run` taken
together: the lock directory after arbitration, the exclusive-skipped list,
the value given to global setup scripts as SESH_EXCLUSIVE_SKIP (the source
joins the list with commas; the joining is abstracted here, `none` meaning
the variable is not set), and the script events in execution order. -/
structure ServicesResult where
  locks : LockState
  skipped : List String
  global_env_skip : Option (List String)
  events : List Event
  deriving DecidableEq, Repr

/-- Steps 10 and 11 of commands/start.rs `run` in sequence: lock arbitration
produces the exclusive-skipped list; global setup scripts receive
SESH_EXCLUSIVE_SKIP from that list when it is non-empty; the per-repo setup
loop then runs the setup entries of every selected repository — the skipped
list is not consulted when deciding which per-repo scripts to run. -/
def lock_and_setup_phase (exclusive : String → Bool) (registry : Registry)
    (session_name : String) (now : Nat) (repos : List String) (st : LockState)
    (scriptOk : String → Bool) (global_setup : List ScriptEntry)
    (repo_setup : String → List ScriptEntry) : ServicesResult :=
  let arb := acquire_exclusive_locks exclusive registry session_name now repos st
  { locks := arb.1
    skipped := arb.2
    global_env_skip := if arb.2.isEmpty then none else some arb.2
    events := setup_events scriptOk global_setup repo_setup repos }

theorem script_events_complete (scriptOk : String → Bool) :
    ∀ entries : List ScriptEntry, (∀ e ∈ entries, scriptOk e.path = true) →
      (script_events scriptOk entries).2 = true ∧
      ∀ e ∈ entries,
        (if e.background then Event.spawnScript e.path else Event.runScript e.path) ∈
          (script_events scriptOk entries).1 := by
  intro entries
  induction entries with
  | nil =>
    intro _
    exact ⟨rfl, by intro e he; simp at he⟩
  | cons a rest ih =>
    intro hok
    have ha : scriptOk a.path = true := hok a (List.mem_cons_self a rest)
    have hrest := ih (fun e he => hok e (List.mem_cons_of_mem a he))
    constructor
    · unfold script_events
      by_cases hb : a.background
      · rw [if_pos hb, if_pos ha]
        exact hrest.1
      · rw [if_neg hb, if_pos ha]
        exact hrest.1
    · intro e he
      unfold script_events
      by_cases hb : a.background
      · rw [if_pos hb, if_pos ha]
        rcases List.mem_cons.mp he with h1 | h2
        · rw [h1, if_pos (h1 ▸ hb)]
          exact List.mem_cons_self _ _
        · exact List.mem_cons_of_mem _ (hrest.2 e h2)
      · rw [if_neg hb, if_pos ha]
        rcases List.mem_cons.mp he with h1 | h2
        · rw [h1, if_neg (h1 ▸ hb)]
          exact List.mem_cons_self _ _
        · exact List.mem_cons_of_mem _ (hrest.2 e h2)

theorem repo_script_events_complete (scriptOk : String → Bool)
    (repo_setup : String → List ScriptEntry) :
    ∀ repos : List String,
      (∀ r ∈ repos, ∀ e ∈ repo_setup r, scriptOk e.path = true) →
      (repo_script_events scriptOk repo_setup repos).2 = true ∧
      ∀ r ∈ repos, ∀ e ∈ repo_setup r,
        (if e.background then Event.spawnScript e.path else Event.runScript e.path) ∈
          (repo_script_events scriptOk repo_setup repos).1 := by
  intro repos
  induction repos with
  | nil =>
    intro _
    exact ⟨rfl, by intro r hr; simp at hr⟩
  | cons r rest ih =>
    intro hok
    have hr := script_events_complete scriptOk (repo_setup r)
      (hok r (List.mem_cons_self r rest))
    have hrest := ih (fun r2 hr2 => hok r2 (List.mem_cons_of_mem r hr2))
    constructor
    · unfold repo_script_events
      rw [if_pos hr.1]
      exact hrest.1
    · intro r2 hr2 e he
      unfold repo_script_events
      rw [if_pos hr.1]
      rcases List.mem_cons.mp hr2 with h1 | h2
      · exact List.mem_append_left _ (h1 ▸ hr.2 e (h1 ▸ he))
      · exact List.mem_append_right _ (hrest.2 r2 h2 e he)

theorem setup_events_complete (scriptOk : String → Bool)
    (global_setup : List ScriptEntry) (repo_setup : String → List ScriptEntry)
    (repos : List String)
    (hg : ∀ e ∈ global_setup, scriptOk e.path = true)
    (hr : ∀ r ∈ repos, ∀ e ∈ repo_setup r, scriptOk e.path = true) :
    ∀ r ∈ repos, ∀ e ∈ repo_setup r,
      (if e.background then Event.spawnScript e.path else Event.runScript e.path) ∈
        setup_events scriptOk global_setup repo_setup repos := by
  intro r hrm e he
  unfold setup_events
  rw [if_pos (script_events_complete scriptOk global_setup hg).1]
  exact List.mem_append_right _
    ((repo_script_events_complete scriptOk repo_setup repos hr).2 r hrm e he)

/-- Counterexample to C2 as stated: an exclusive repository whose lock is
held by a session still in the registry is recorded as skipped, yet its
per-repo setup script is still executed — the skipped list is never
consulted by the per-repo loop of start.rs step 11, it only populates
SESH_EXCLUSIVE_SKIP for global setup scripts — so "its per-repo services are
skipped" fails. -/
theorem C2_per_repo_scripts_not_skipped_counterexample :
    ("infra" ∈ (lock_and_setup_phase (fun _ => true) ["alpha"] "new" 7 ["infra"]
        [("infra", ⟨"alpha", 1⟩)] (fun _ => true) []
        (fun _ => [⟨"infra-dev.sh", false⟩])).skipped) ∧
    (Event.runScript "infra-dev.sh" ∈
      (lock_and_setup_phase (fun _ => true) ["alpha"] "new" 7 ["infra"]
        [("infra", ⟨"alpha", 1⟩)] (fun _ => true) []
        (fun _ => [⟨"infra-dev.sh", false⟩])).events) := by
  constructor
  · decide
  · decide

/-- C2 (amended): for every exclusive repository considered when starting a
new session: with no lock file, the lock is acquired for the new session and
the repository is not recorded as skipped; with a lock naming a session that
still exists in the registry, the new session acquires nothing for that
repository, the existing lock is left unchanged, and the repository is
recorded in the exclusive-skipped list, which is passed to global setup
scripts as SESH_EXCLUSIVE_SKIP when non-empty so that they can skip its
services, while the orchestrator itself still runs the repository's per-repo
setup scripts; with a lock naming a session absent from the registry, the
lock is reclaimed by overwriting it with the new session's name. -/
theorem C2_exclusive_lock_arbitration_amended (exclusive : String → Bool)
    (registry : Registry) (sn : String) (now : Nat) (repos : List String)
    (st : LockState) (k : String) (scriptOk : String → Bool)
    (global_setup : List ScriptEntry) (repo_setup : String → List ScriptEntry)
    (hnd : repos.Nodup) (hWF : LockWF st) (hk : k ∈ repos)
    (he : exclusive k = true) :
    (check_lock st k = none →
      check_lock (lock_and_setup_phase exclusive registry sn now repos st scriptOk
        global_setup repo_setup).locks k = some ⟨sn, now⟩ ∧
      k ∉ (lock_and_setup_phase exclusive registry sn now repos st scriptOk
        global_setup repo_setup).skipped) ∧
    (∀ li, check_lock st k = some li → session_exists registry li.session = true →
      check_lock (lock_and_setup_phase exclusive registry sn now repos st scriptOk
        global_setup repo_setup).locks k = some li ∧
      k ∈ (lock_and_setup_phase exclusive registry sn now repos st scriptOk
        global_setup repo_setup).skipped) ∧
    (∀ li, check_lock st k = some li → session_exists registry li.session = false →
      check_lock (lock_and_setup_phase exclusive registry sn now repos st scriptOk
        global_setup repo_setup).locks k = some ⟨sn, now⟩ ∧
      k ∉ (lock_and_setup_phase exclusive registry sn now repos st scriptOk
        global_setup repo_setup).skipped) ∧
    ((lock_and_setup_phase exclusive registry sn now repos st scriptOk
        global_setup repo_setup).skipped ≠ [] →
      (lock_and_setup_phase exclusive registry sn now repos st scriptOk
        global_setup repo_setup).global_env_skip =
        some (lock_and_setup_phase exclusive registry sn now repos st scriptOk
          global_setup repo_setup).skipped) ∧
    ((∀ e ∈ global_setup, scriptOk e.path = true) →
      (∀ r ∈ repos, ∀ e ∈ repo_setup r, scriptOk e.path = true) →
      ∀ e ∈ repo_setup k,
        (if e.background then Event.spawnScript e.path else Event.runScript e.path) ∈
          (lock_and_setup_phase exclusive registry sn now repos st scriptOk
            global_setup repo_setup).events) := by
  obtain ⟨q1, q2, q3⟩ := lock_fold_cases exclusive registry sn now repos k hnd hk he
    (st, []) hWF
  refine ⟨?_, q2, ?_, ?_, ?_⟩
  · intro hnone
    obtain ⟨r1, r2⟩ := q1 hnone
    exact ⟨r1, fun hc => by simpa using r2.mp hc⟩
  · intro li hsome hdead
    obtain ⟨r1, r2⟩ := q3 li hsome hdead
    exact ⟨r1, fun hc => by simpa using r2.mp hc⟩
  · intro hne
    unfold lock_and_setup_phase
    simp only
    rw [if_neg (by simpa [List.isEmpty_iff] using hne)]
  · intro hg hr e hep
    exact setup_events_complete scriptOk global_setup repo_setup repos hg hr k hk e hep

/-- Witness for C2 (amended): one unlocked repository, one locked by a live
session, one locked by a session gone from the registry; the skip list is
passed to global scripts and the live-locked repository's per-repo setup
script still runs. -/
theorem C2_exclusive_lock_arbitration_amended_witness :
    (check_lock (lock_and_setup_phase (fun _ => true) ["alpha"] "new" 7
        ["api", "web", "infra"] [("web", ⟨"alpha", 1⟩), ("infra", ⟨"ghost", 2⟩)]
        (fun _ => true) [⟨"global.sh", true⟩]
        (fun r => [⟨r ++ "-dev.sh", false⟩])).locks "api" = some ⟨"new", 7⟩) ∧
    (check_lock (lock_and_setup_phase (fun _ => true) ["alpha"] "new" 7
        ["api", "web", "infra"] [("web", ⟨"alpha", 1⟩), ("infra", ⟨"ghost", 2⟩)]
        (fun _ => true) [⟨"global.sh", true⟩]
        (fun r => [⟨r ++ "-dev.sh", false⟩])).locks "web" = some ⟨"alpha", 1⟩) ∧
    ("web" ∈ (lock_and_setup_phase (fun _ => true) ["alpha"] "new" 7
        ["api", "web", "infra"] [("web", ⟨"alpha", 1⟩), ("infra", ⟨"ghost", 2⟩)]
        (fun _ => true) [⟨"global.sh", true⟩]
        (fun r => [⟨r ++ "-dev.sh", false⟩])).skipped) ∧
    (check_lock (lock_and_setup_phase (fun _ => true) ["alpha"] "new" 7
        ["api", "web", "infra"] [("web", ⟨"alpha", 1⟩), ("infra", ⟨"ghost", 2⟩)]
        (fun _ => true) [⟨"global.sh", true⟩]
        (fun r => [⟨r ++ "-dev.sh", false⟩])).locks "infra" = some ⟨"new", 7⟩) ∧
    ((lock_and_setup_phase (fun _ => true) ["alpha"] "new" 7
        ["api", "web", "infra"] [("web", ⟨"alpha", 1⟩), ("infra", ⟨"ghost", 2⟩)]
        (fun _ => true) [⟨"global.sh", true⟩]
        (fun r => [⟨r ++ "-dev.sh", false⟩])).global_env_skip =
      some (lock_and_setup_phase (fun _ => true) ["alpha"] "new" 7
        ["api", "web", "infra"] [("web", ⟨"alpha", 1⟩), ("infra", ⟨"ghost", 2⟩)]
        (fun _ => true) [⟨"global.sh", true⟩]
        (fun r => [⟨r ++ "-dev.sh", false⟩])).skipped) ∧
    (Event.runScript "web-dev.sh" ∈
      (lock_and_setup_phase (fun _ => true) ["alpha"] "new" 7
        ["api", "web", "infra"] [("web", ⟨"alpha", 1⟩), ("infra", ⟨"ghost", 2⟩)]
        (fun _ => true) [⟨"global.sh", true⟩]
        (fun r => [⟨r ++ "-dev.sh", false⟩])).events) := by
  have hnd : (["api", "web", "infra"] : List String).Nodup := by decide
  have hWF : LockWF [("web", ⟨"alpha", 1⟩), ("infra", ⟨"ghost", 2⟩)] := by
    unfold LockWF; decide
  have h1 := C2_exclusive_lock_arbitration_amended (fun _ => true) ["alpha"] "new" 7
    ["api", "web", "infra"] [("web", ⟨"alpha", 1⟩), ("infra", ⟨"ghost", 2⟩)] "api"
    (fun _ => true) [⟨"global.sh", true⟩] (fun r => [⟨r ++ "-dev.sh", false⟩])
    hnd hWF (by decide) rfl
  have h2 := C2_exclusive_lock_arbitration_amended (fun _ => true) ["alpha"] "new" 7
    ["api", "web", "infra"] [("web", ⟨"alpha", 1⟩), ("infra", ⟨"ghost", 2⟩)] "web"
    (fun _ => true) [⟨"global.sh", true⟩] (fun r => [⟨r ++ "-dev.sh", false⟩])
    hnd hWF (by decide) rfl
  have h3 := C2_exclusive_lock_arbitration_amended (fun _ => true) ["alpha"] "new" 7
    ["api", "web", "infra"] [("web", ⟨"alpha", 1⟩), ("infra", ⟨"ghost", 2⟩)] "infra"
    (fun _ => true) [⟨"global.sh", true⟩] (fun r => [⟨r ++ "-dev.sh", false⟩])
    hnd hWF (by decide) rfl
  obtain ⟨a1, _⟩ := h1.1 (by decide)
  obtain ⟨b1, b2⟩ := h2.2.1 ⟨"alpha", 1⟩ (by decide) (by decide)
  obtain ⟨c1, _⟩ := h3.2.2.1 ⟨"ghost", 2⟩ (by decide) (by decide)
  have e1 := h2.2.2.2.1 (by intro hc; rw [hc] at b2; simp at b2)
  have e2 := h2.2.2.2.2 (by intro e he; rfl) (by intro r hr e he; rfl) ⟨"web-dev.sh", false⟩
    (by decide)
  exact ⟨a1, b1, b2, c1, e1, by simpa using e2⟩

end Sesh
